import Mathlib

/-!
Shallow embedding of `queue.c` (singly linked queue with cached tail
pointer and count, plus an in-place linked-list merge sort).

Pointers are modelled as `Option Nat` into an allocation arena `Heap`
(a list of nodes; the address of a node is its index, `malloc` appends
at the end). Strings are Lean `String`s whose characters model bytes;
`size_t` arithmetic is `Nat` arithmetic modulo `2 ^ 64`.
-/

namespace Lab0

/-- A linked-list node, corresponding to `list_ele_t`: an owned string
`value` and a forward link `next` (`none` models a NULL pointer). -/
structure Node where
  value : String
  next : Option Nat
deriving DecidableEq

/-- The allocation arena: node addresses are list indices, `malloc`
appends at the end. Freed nodes are simply left unreachable, which is
adequate for the observable queue state. -/
abbrev Heap := List Node

/-- The queue header, corresponding to `queue_t`: `head` and
`last_element` are possibly-NULL node pointers; `count` is a C `int`. -/
structure Queue where
  head : Option Nat
  count : Int
  last_element : Option Nat
deriving DecidableEq

/-- A non-NULL queue handle together with the arena it points into. -/
structure State where
  heap : Heap
  q : Queue
deriving DecidableEq

/-- Read `p->next`; dereferencing an invalid pointer (UB in C) collapses
to `none`. -/
def nextOf (h : Heap) (a : Nat) : Option Nat := (h[a]?).bind Node.next

/-- Read `p->value`; dereferencing an invalid pointer collapses to `""`. -/
def valueOf (h : Heap) (a : Nat) : String := ((h[a]?).map Node.value).getD ""

/-- Write `p->next = x`; no-op on an invalid pointer. -/
def setNext (h : Heap) (a : Nat) (x : Option Nat) : Heap :=
  match h[a]? with
  | none => h
  | some nd => h.set a { nd with next := x }

/-- The addresses reachable from `p` by following `next`, computed with
fuel; `none` when the fuel runs out (a cycle) or a dangling pointer is
hit. -/
def chain (h : Heap) : Option Nat → Nat → Option (List Nat)
  | none, _ => some []
  | some _, 0 => none
  | some a, fuel+1 =>
    match h[a]? with
    | none => none
    | some nd => (chain h nd.next fuel).map (fun l => a :: l)

/-- `IsChain h p l`: starting from pointer `p`, the `next` links traverse
exactly the addresses `l` and end in NULL. -/
inductive IsChain (h : Heap) : Option Nat → List Nat → Prop
  | nil : IsChain h none []
  | cons {a : Nat} {nd : Node} {l : List Nat} :
      h[a]? = some nd → IsChain h nd.next l → IsChain h (some a) (a :: l)

/-- `q_new` (the successful-allocation case): head NULL, count 0,
`last_element = q->head`, empty arena. -/
def q_new : State :=
  { heap := [], q := { head := none, count := 0, last_element := none } }

/-- `int len = strlen(s)` in the inserts truncates the `size_t` length
to a C `int` before `strncpy(newh->value, s, len)` and
`newh->value[len] = 0`, so the node stores only the first
`strlen(s) mod 2^32` bytes of `s`. For every string of length below
`2^31` — in particular every string reachable through the program's own
operations — this is `s` itself; for a length whose truncation is
negative the C calls are undefined behaviour, which the model collapses
to the same wrapped prefix. -/
def storedStr (s : String) : String := ⟨s.toList.take (s.length % 2 ^ 32)⟩

/-- `q_insert_head q s` on a non-NULL queue. `ok1`/`ok2` say whether the
two `malloc` calls (the node, then the string copy) succeed; on failure
everything already allocated by the call is freed again, so the state
comes back unchanged. The stored value is the `int`-truncated copy
`storedStr str`. -/
def q_insert_head (ok1 ok2 : Bool) (s : State) (str : String) : Bool × State :=
  if !ok1 then (false, s)
  else if !ok2 then (false, s)
  else
    let a := s.heap.length
    let newh : Node := { value := storedStr str, next := s.q.head }
    (true,
      { heap := s.heap ++ [newh],
        q := { head := some a, count := s.q.count + 1,
               last_element := if s.q.head = none then some a else s.q.last_element } })

/-- `q_insert_tail q s` on a non-NULL queue, with the same allocation
flags and the same `int`-truncated copy (`storedStr str`) as
`q_insert_head`. The append goes through the cached `last_element`
pointer (`q->last_element->next = newh`). -/
def q_insert_tail (ok1 ok2 : Bool) (s : State) (str : String) : Bool × State :=
  if !ok1 then (false, s)
  else if !ok2 then (false, s)
  else
    let a := s.heap.length
    let newh : Node := { value := storedStr str, next := none }
    match s.q.last_element with
    | none =>
      (true,
        { heap := s.heap ++ [newh],
          q := { head := some a, count := s.q.count + 1, last_element := some a } })
    | some la =>
      (true,
        { heap := setNext (s.heap ++ [newh]) la (some a),
          q := { head := s.q.head, count := s.q.count + 1, last_element := some a } })

/-- `size_t` subtraction `bufsize - 1`, modulo `2 ^ 64`. -/
def szSub1 (bufsize : Nat) : Nat := (bufsize + (2 ^ 64 - 1)) % 2 ^ 64

/-- `realBufsize` from `q_remove_head`:
`strlen(value) < bufsize - 1 ? strlen(value) : bufsize - 1` in `size_t`
arithmetic. -/
def realBufsize (len bufsize : Nat) : Nat :=
  if len < szSub1 bufsize then len else szSub1 bufsize

/-- The characters written through `sp` (characters model bytes):
`memcpy(sp, value, realBufsize)` followed by `sp[realBufsize] = 0`. -/
def writeOut (v : String) (bufsize : Nat) : List Char :=
  v.toList.take (realBufsize v.length bufsize) ++ [Char.ofNat 0]

/-- `q_remove_head q sp bufsize` on a non-NULL queue: returns the success
flag, the characters written to `sp` when `sp` is non-NULL, and the new
state. -/
def q_remove_head (s : State) (sp : Bool) (bufsize : Nat) :
    Bool × Option (List Char) × State :=
  match s.q.head with
  | none => (false, none, s)
  | some a =>
    match s.heap[a]? with
    | none => (false, none, s)
    | some nd =>
      let out := if sp then some (writeOut nd.value bufsize) else none
      (true, out,
        { heap := s.heap,
          q := { head := nd.next, count := s.q.count - 1,
                 last_element := if nd.next = none then none else s.q.last_element } })

/-- `q_remove_head` on a possibly-NULL queue handle. -/
def q_remove_head_h (qh : Option State) (sp : Bool) (bufsize : Nat) :
    Bool × Option (List Char) × Option State :=
  match qh with
  | none => (false, none, none)
  | some s =>
    let r := q_remove_head s sp bufsize
    (r.1, r.2.1, some r.2.2)

/-- `q_size`: `return q ? q->count : 0;`. -/
def q_size (qh : Option State) : Int :=
  match qh with
  | none => 0
  | some s => s.q.count

/-- The pointer-reversal loop of `q_reverse`:
`while (current) { temp = current->next; current->next = prev; prev = current; current = temp; }`;
returns the final heap and `prev`. -/
def reverseLoop : Heap → Option Nat → Option Nat → Nat → Heap × Option Nat
  | h, prev, _, 0 => (h, prev)
  | h, prev, none, _+1 => (h, prev)
  | h, prev, some a, fuel+1 =>
    match h[a]? with
    | none => (h, prev)
    | some nd => reverseLoop (h.set a { nd with next := prev }) (some a) nd.next fuel

/-- `q_reverse` on a non-NULL queue: first `q->last_element = q->head`,
then the link-reversal loop, then `q->head = prev`. -/
def q_reverse (s : State) : State :=
  let r := reverseLoop s.heap none s.q.head (s.heap.length + 1)
  { heap := r.1,
    q := { head := r.2, count := s.q.count, last_element := s.q.head } }

/-- `strcmp` on byte sequences, abstracted to its sign: compare byte by
byte; the first differing byte decides, and a proper prefix (whose NUL
terminator is hit first) compares smaller. -/
def strcmpL : List Char -> List Char -> Int
  | [], [] => 0
  | [], _ :: _ => -1
  | _ :: _, [] => 1
  | a :: as, b :: bs =>
    if a < b then -1
    else if b < a then 1
    else strcmpL as bs

/-- `strcmp` on the two strings' character (byte) sequences. -/
def strcmpI (a b : String) : Int := strcmpL a.data b.data

/-- `comparator`: `strcmp` on the two nodes' stored strings. -/
def comparator (h : Heap) (a b : Nat) : Int := strcmpI (valueOf h a) (valueOf h b)

/-- The slow/fast split scan of `mergesort`:
`while (fast->next && fast->next->next) { slow = slow->next; fast = fast->next->next; }`;
returns the final `slow`. -/
def splitLoop (h : Heap) : Nat → Nat → Nat → Nat
  | slow, _, 0 => slow
  | slow, fast, fuel+1 =>
    match nextOf h fast with
    | none => slow
    | some f1 =>
      match nextOf h f1 with
      | none => slow
      | some f2 =>
        match nextOf h slow with
        | none => slow
        | some s1 => splitLoop h s1 f2 fuel

/-- The merge loop of `mergesort`. Arguments mirror the C locals
`start`, `merge`, `left`, `right`; on taking a node the code reads its
`next`, links it after `merge` (or makes it `start` when `merge` is
NULL) and then sets its own `next` to NULL. On `left`/`right` both
equal (`comparator` returns 0, so `< 0` fails) the right node is
taken. -/
def mergeLoop : Heap → Option Nat → Option Nat → Option Nat → Option Nat → Nat →
    Heap × Option Nat
  | h, start, _, _, _, 0 => (h, start)
  | h, start, _, none, none, _+1 => (h, start)
  | h, start, mrg, some l, none, fuel+1 =>
    let nx := nextOf h l
    (match mrg with
     | none => mergeLoop (setNext h l none) (some l) (some l) nx none fuel
     | some m =>
       mergeLoop (setNext (setNext h m (some l)) l none) start (some l) nx none fuel)
  | h, start, mrg, none, some r, fuel+1 =>
    let nx := nextOf h r
    (match mrg with
     | none => mergeLoop (setNext h r none) (some r) (some r) none nx fuel
     | some m =>
       mergeLoop (setNext (setNext h m (some r)) r none) start (some r) none nx fuel)
  | h, start, mrg, some l, some r, fuel+1 =>
    if comparator h l r < 0 then
      let nx := nextOf h l
      (match mrg with
       | none => mergeLoop (setNext h l none) (some l) (some l) nx (some r) fuel
       | some m =>
         mergeLoop (setNext (setNext h m (some l)) l none) start (some l) nx (some r) fuel)
    else
      let nx := nextOf h r
      (match mrg with
       | none => mergeLoop (setNext h r none) (some r) (some r) (some l) nx fuel
       | some m =>
         mergeLoop (setNext (setNext h m (some r)) r none) start (some r) (some l) nx fuel)

/-- `mergesort start comparator`, with fuel bounding the recursion
depth: split with the slow/fast scan, cut the chain after `slow`,
recursively sort the two sub-chains, then merge them in place. -/
def mergesortH : Heap → Option Nat → Nat → Heap × Option Nat
  | h, start, 0 => (h, start)
  | h, none, _+1 => (h, none)
  | h, some a, fuel+1 =>
    match nextOf h a with
    | none => (h, some a)
    | some _ =>
      let slow := splitLoop h a a (h.length + 1)
      let right := nextOf h slow
      let h0 := setNext h slow none
      let r1 := mergesortH h0 (some a) fuel
      let r2 := mergesortH r1.1 right fuel
      mergeLoop r2.1 (some a) none r1.2 r2.2 (r2.1.length + 1)

/-- The `while (end->next) end = end->next;` walk of `q_sort`. -/
def lastLoop (h : Heap) : Nat → Nat → Nat
  | a, 0 => a
  | a, fuel+1 =>
    match nextOf h a with
    | none => a
    | some b => lastLoop h b fuel

/-- `q_sort` on a non-NULL queue: no-op when empty or `count == 1`;
otherwise `q->head = mergesort(q->head, comparator)` followed by the
walk recomputing `last_element`. -/
def q_sort (s : State) : State :=
  match s.q.head with
  | none => s
  | some a =>
    if s.q.count = 1 then s
    else
      let r := mergesortH s.heap (some a) (s.heap.length + 1)
      match r.2 with
      | none => { heap := r.1, q := { s.q with head := none } }
      | some b =>
        let e := lastLoop r.1 b (r.1.length + 1)
        { heap := r.1,
          q := { head := some b, count := s.q.count, last_element := some e } }

/-! ### Basic facts about chains -/

theorem isChain_none {h : Heap} {l : List Nat} (hc : IsChain h none l) : l = [] := by
  cases hc; rfl

theorem isChain_nil_ptr {h : Heap} {p : Option Nat} (hc : IsChain h p []) : p = none := by
  cases hc; rfl

theorem isChain_some {h : Heap} {a : Nat} {l : List Nat} (hc : IsChain h (some a) l) :
    ∃ nd l', h[a]? = some nd ∧ l = a :: l' ∧ IsChain h nd.next l' := by
  cases hc with
  | cons hget htail => exact ⟨_, _, hget, rfl, htail⟩

theorem isChain_deterministic {h : Heap} {p : Option Nat} {l₁ l₂ : List Nat}
    (h₁ : IsChain h p l₁) (h₂ : IsChain h p l₂) : l₁ = l₂ := by
  induction h₁ generalizing l₂ with
  | nil => exact (isChain_none h₂).symm
  | @cons a nd l hget htail ih =>
    rcases isChain_some h₂ with ⟨nd₂, l₂', hget₂, rfl, htail₂⟩
    rw [hget] at hget₂
    cases hget₂
    rw [ih htail₂]

theorem isChain_mem_lt {h : Heap} {p : Option Nat} {l : List Nat} (hc : IsChain h p l) :
    ∀ a ∈ l, a < h.length := by
  induction hc with
  | nil => simp
  | @cons a nd l hget htail ih =>
    intro b hb
    rcases List.mem_cons.mp hb with rfl | hb
    · rcases List.getElem?_eq_some.mp hget with ⟨hlt, _⟩
      exact hlt
    · exact ih b hb

theorem isChain_mem_suffix {h : Heap} {p : Option Nat} {l : List Nat} (hc : IsChain h p l) :
    ∀ a ∈ l, ∃ t, IsChain h (some a) (a :: t) ∧ t.length < l.length := by
  induction hc with
  | nil => simp
  | @cons a nd l hget htail ih =>
    intro b hb
    rcases List.mem_cons.mp hb with rfl | hb
    · exact ⟨l, IsChain.cons hget htail, by simp⟩
    · rcases ih b hb with ⟨t, ht, hlen⟩
      exact ⟨t, ht, by simpa using Nat.lt_succ_of_lt hlen⟩

theorem isChain_nodup {h : Heap} {p : Option Nat} {l : List Nat} (hc : IsChain h p l) :
    l.Nodup := by
  induction hc with
  | nil => simp
  | @cons a nd l hget htail ih =>
    refine List.nodup_cons.mpr ⟨fun hmem => ?_, ih⟩
    rcases isChain_mem_suffix htail a hmem with ⟨t, ht, hlen⟩
    have heq := isChain_deterministic (IsChain.cons hget htail) ht
    have : l = t := by injection heq
    subst this
    omega

theorem isChain_length_le {h : Heap} {p : Option Nat} {l : List Nat} (hc : IsChain h p l) :
    l.length ≤ h.length := by
  have hnd := isChain_nodup hc
  have hlt := isChain_mem_lt hc
  have hsub : l.toFinset ⊆ Finset.range h.length := by
    intro a ha
    rcases List.mem_toFinset.mp ha with ha'
    exact Finset.mem_range.mpr (hlt a (by simpa using ha'))
  have := Finset.card_le_card hsub
  rwa [List.toFinset_card_of_nodup hnd, Finset.card_range] at this

theorem isChain_frame {h h' : Heap} {p : Option Nat} {l : List Nat}
    (hag : ∀ a ∈ l, h'[a]? = h[a]?) (hc : IsChain h p l) : IsChain h' p l := by
  induction hc with
  | nil => exact IsChain.nil
  | @cons a nd l hget htail ih =>
    exact IsChain.cons (by rw [hag a (by simp)]; exact hget)
      (ih fun b hb => hag b (by simp [hb]))

theorem isChain_getLast_next {h : Heap} {p : Option Nat} {l : List Nat}
    (hc : IsChain h p l) :
    ∀ a, l.getLast? = some a → nextOf h a = none := by
  induction hc with
  | nil => simp
  | @cons b nd l hget htail ih =>
    intro a ha
    cases l with
    | nil =>
      simp at ha
      subst ha
      have : nd.next = none := isChain_nil_ptr htail
      simp [nextOf, hget, this]
    | cons c l' =>
      rw [List.getLast?_cons_cons] at ha
      exact ih a ha

theorem isChain_of_chain {h : Heap} :
    ∀ {f : Nat} {p : Option Nat} {l : List Nat}, chain h p f = some l → IsChain h p l := by
  intro f
  induction f with
  | zero =>
    intro p l hc
    cases p with
    | none => simp [chain] at hc; subst hc; exact IsChain.nil
    | some a => simp [chain] at hc
  | succ f ih =>
    intro p l hc
    cases p with
    | none => simp [chain] at hc; subst hc; exact IsChain.nil
    | some a =>
      rw [chain] at hc
      cases hget : h[a]? with
      | none => rw [hget] at hc; simp at hc
      | some nd =>
        rw [hget] at hc
        rcases Option.map_eq_some'.mp hc with ⟨l', hl', rfl⟩
        exact IsChain.cons hget (ih hl')

theorem chain_of_isChain {h : Heap} {p : Option Nat} {l : List Nat} (hc : IsChain h p l) :
    ∀ f, l.length < f → chain h p f = some l := by
  induction hc with
  | nil =>
    intro f hf
    cases f with
    | zero => omega
    | succ f => simp [chain]
  | @cons a nd l hget htail ih =>
    intro f hf
    cases f with
    | zero => omega
    | succ f =>
      have h1 : chain h (some a) (f + 1) =
          Option.map (fun l => a :: l) (chain h nd.next f) := by
        rw [chain, hget]
      rw [h1, ih f (by simp at hf; omega)]
      rfl

/-! ### Heap-update lemmas -/

theorem length_setNext (h : Heap) (a : Nat) (x : Option Nat) :
    (setNext h a x).length = h.length := by
  unfold setNext
  split
  · rfl
  · exact List.length_set h ..

theorem getElem?_setNext_ne {h : Heap} {a : Nat} {x : Option Nat} {b : Nat} (hne : b ≠ a) :
    (setNext h a x)[b]? = h[b]? := by
  unfold setNext
  split
  · rfl
  · exact List.getElem?_set_ne (Ne.symm hne)

theorem getElem?_setNext_self {h : Heap} {a : Nat} {nd : Node} {x : Option Nat}
    (hget : h[a]? = some nd) : (setNext h a x)[a]? = some { nd with next := x } := by
  unfold setNext
  rw [hget]
  rcases List.getElem?_eq_some.mp hget with ⟨hlt, _⟩
  exact List.getElem?_set_self hlt

theorem valueOf_setNext (h : Heap) (a : Nat) (x : Option Nat) (b : Nat) :
    valueOf (setNext h a x) b = valueOf h b := by
  by_cases hb : b = a
  · subst hb
    cases hget : h[b]? with
    | none => unfold valueOf setNext; simp [hget]
    | some nd =>
      unfold valueOf
      rw [hget, getElem?_setNext_self hget]
      rfl
  · unfold valueOf
    rw [getElem?_setNext_ne hb]

theorem valueOf_append (h : Heap) (h₂ : Heap) (b : Nat) (hb : b < h.length) :
    valueOf (h ++ h₂) b = valueOf h b := by
  unfold valueOf
  rw [List.getElem?_append_left hb]

/-- The representation invariant of a queue state: some address list `l`
is the chain of `head`, `count` caches its length and `last_element` its
last address. -/
def RepOk (s : State) : Prop :=
  ∃ l, IsChain s.heap s.q.head l ∧
    s.q.count = (l.length : Int) ∧ s.q.last_element = l.getLast?

/-- The observable value sequence of a queue, via the fuelled `chain`
computation. -/
def qVals (s : State) : Option (List String) :=
  (chain s.heap s.q.head (s.heap.length + 1)).map (fun l => l.map (valueOf s.heap))

/-- "compare(x, y) <= 0": the ascending order the spec states for
adjacent elements of the sorted chain. -/
def sle (x y : String) : Prop := strcmpI x y ≤ 0

/-- The pure counterpart of the merge loop on address lists: `key` gives
every node's stored string (values never change during the sort). The
tie-break mirrors the C code: left is taken only when the comparison is
strictly negative. -/
def mergeF (key : Nat → String) : List Nat → List Nat → List Nat
  | [], r => r
  | l, [] => l
  | a :: as, b :: bs =>
    if strcmpI (key a) (key b) < 0 then a :: mergeF key as (b :: bs)
    else b :: mergeF key (a :: as) bs
termination_by l r => l.length + r.length

/-- The pure counterpart of `mergesort`: split at `(n + 1) / 2` (the
point the slow/fast scan finds), sort both halves, merge. -/
def msF (key : Nat → String) : List Nat → List Nat
  | [] => []
  | [a] => [a]
  | a :: b :: rest =>
    mergeF key (msF key ((a :: b :: rest).take (((a :: b :: rest).length + 1) / 2)))
      (msF key ((a :: b :: rest).drop (((a :: b :: rest).length + 1) / 2)))
termination_by l => l.length
decreasing_by
  all_goals simp
  all_goals omega

/-- The representation invariant exactly as claimed: head/tail/count
emptiness agree, the cached tail node has a NULL `next`, `count` counts
the nodes reachable from `head`, and the chain is acyclic (no address
repeats). -/
def Facets (t : State) : Prop :=
  (t.q.head = none ↔ t.q.last_element = none) ∧
  (t.q.head = none ↔ t.q.count = 0) ∧
  (∀ x, t.q.last_element = some x → nextOf t.heap x = none) ∧
  ∃ l, IsChain t.heap t.q.head l ∧ t.q.count = (l.length : Int) ∧ l.Nodup


theorem repOk_count_zero_of_head_none {s : State} (hs : RepOk s) (hh : s.q.head = none) :
    s.q.count = 0 := by
  rcases hs with ⟨l, hc, hcount, _⟩
  rw [hh] at hc
  rw [isChain_none hc] at hcount
  simpa using hcount

theorem repOk_last_none_of_head_none {s : State} (hs : RepOk s) (hh : s.q.head = none) :
    s.q.last_element = none := by
  rcases hs with ⟨l, hc, _, hlast⟩
  rw [hh] at hc
  rw [isChain_none hc] at hlast
  simpa using hlast

/-! ### `size_t` truncation arithmetic -/

/-- For strings shorter than `2^31` bytes the `int` length cast of the
inserts is lossless: the stored copy is the string itself. -/
theorem storedStr_small {s : String} (h : s.length < 2 ^ 31) : storedStr s = s := by
  unfold storedStr
  have h32 : s.length % 2 ^ 32 = s.length := Nat.mod_eq_of_lt (by omega)
  rw [h32]
  have hl : s.toList.length = s.length := rfl
  rw [← hl, List.take_length]
  rfl

theorem szSub1_eq {n : Nat} (h1 : 1 ≤ n) (h2 : n ≤ 2 ^ 64) : szSub1 n = n - 1 := by
  unfold szSub1
  have h3 : n + (2 ^ 64 - 1) = (n - 1) + 1 * 2 ^ 64 := by omega
  rw [h3, Nat.add_mul_mod_self_right]
  exact Nat.mod_eq_of_lt (by omega)

theorem realBufsize_full {len n : Nat} (h1 : len + 1 ≤ n) (h2 : n ≤ 2 ^ 64) :
    realBufsize len n = len := by
  rw [realBufsize, szSub1_eq (by omega) h2]
  rcases Nat.lt_or_ge len (n - 1) with h | h
  · simp [h]
  · have : len = n - 1 := by omega
    simp [this]

/-- With a large enough buffer the whole stored string plus the
terminator is copied. -/
theorem writeOut_full {v : String} {n : Nat} (h1 : v.length + 1 ≤ n) (h2 : n ≤ 2 ^ 64) :
    writeOut v n = v.toList ++ [Char.ofNat 0] := by
  rw [writeOut, realBufsize_full h1 h2]
  congr 1
  have hlen : v.toList.length = v.length := rfl
  rw [← hlen, List.take_length]

/-- C4: when any single allocation step inside `q_insert_head` or
`q_insert_tail` fails, the call returns the failure indicator `false`,
every allocation already made for the call is released again, and the
whole state (arena and queue header, hence head, tail, count and the
element chain) is exactly what it was before the call. -/
theorem insert_alloc_failure_rolls_back (s : State) (str : String) (ok1 ok2 : Bool)
    (hfail : ok1 = false ∨ ok2 = false) :
    q_insert_head ok1 ok2 s str = (false, s) ∧
    q_insert_tail ok1 ok2 s str = (false, s) := by
  rcases hfail with rfl | rfl
  · simp [q_insert_head, q_insert_tail]
  · cases ok1 <;> simp [q_insert_head, q_insert_tail]

/-- Witness for C4: a failing second allocation on a concrete
one-element queue mutates nothing. -/
theorem insert_alloc_failure_rolls_back_witness :
    q_insert_head true false
        { heap := [{ value := "a", next := none }],
          q := { head := some 0, count := 1, last_element := some 0 } } "b" =
      (false, { heap := [{ value := "a", next := none }],
                q := { head := some 0, count := 1, last_element := some 0 } }) ∧
    q_insert_tail true false
        { heap := [{ value := "a", next := none }],
          q := { head := some 0, count := 1, last_element := some 0 } } "b" =
      (false, { heap := [{ value := "a", next := none }],
                q := { head := some 0, count := 1, last_element := some 0 } }) :=
  insert_alloc_failure_rolls_back _ "b" true false (Or.inr rfl)

/-- C8: `q_remove_head` on a NULL handle fails and writes nothing; on an
empty queue it fails, writes nothing, leaves the state untouched, and —
for a queue satisfying the representation invariant — `q_size` stays
0. -/
theorem remove_head_empty_no_mutation (s : State) (sp : Bool) (bufsize : Nat)
    (hs : RepOk s) (hempty : s.q.head = none) :
    q_remove_head_h none sp bufsize = (false, none, none) ∧
    q_remove_head s sp bufsize = (false, none, s) ∧
    q_size (some s) = 0 := by
  refine ⟨rfl, ?_, ?_⟩
  · simp [q_remove_head, hempty]
  · simpa [q_size] using repOk_count_zero_of_head_none hs hempty

/-- Witness for C8 at the concrete empty queue. -/
theorem remove_head_empty_no_mutation_witness :
    q_remove_head_h none true 8 = (false, none, none) ∧
    q_remove_head q_new true 8 = (false, none, q_new) ∧
    q_size (some q_new) = 0 :=
  remove_head_empty_no_mutation q_new true 8 ⟨[], IsChain.nil, rfl, rfl⟩ rfl

/-- C10: with a non-NULL output buffer of declared capacity 0, the
`size_t` computation `bufsize - 1` wraps around to `2^64 - 1`, so the
truncation bound never applies and a successful `q_remove_head` writes
the full stored string plus the terminator — `length + 1` bytes,
strictly more than the declared capacity 0. -/
theorem remove_head_cap_zero_writes_full_string (s : State) (a : Nat) (nd : Node)
    (hh : s.q.head = some a) (hn : s.heap[a]? = some nd)
    (hlen : nd.value.length < 2 ^ 64 - 1) :
    (q_remove_head s true 0).1 = true ∧
    (q_remove_head s true 0).2.1 = some (nd.value.toList ++ [Char.ofNat 0]) ∧
    szSub1 0 = 2 ^ 64 - 1 ∧
    (nd.value.toList ++ [Char.ofNat 0]).length = nd.value.length + 1 ∧
    0 < nd.value.length + 1 := by
  have hsz : szSub1 0 = 2 ^ 64 - 1 := by norm_num [szSub1]
  have hreal : realBufsize nd.value.length 0 = nd.value.length := by
    rw [realBufsize, hsz, if_pos hlen]
  have hwrite : writeOut nd.value 0 = nd.value.toList ++ [Char.ofNat 0] := by
    rw [writeOut, hreal]
    congr 1
    have hl : nd.value.toList.length = nd.value.length := rfl
    rw [← hl, List.take_length]
  refine ⟨?_, ?_, hsz, ?_, by omega⟩
  · simp [q_remove_head, hh, hn]
  · simp [q_remove_head, hh, hn, hwrite]
  · simp

/-- Witness for C10: a queue holding `"ab"`, capacity 0: three bytes are
written. -/
theorem remove_head_cap_zero_writes_full_string_witness :
    (q_remove_head
        { heap := [{ value := "ab", next := none }],
          q := { head := some 0, count := 1, last_element := some 0 } } true 0).1 = true ∧
    (q_remove_head
        { heap := [{ value := "ab", next := none }],
          q := { head := some 0, count := 1, last_element := some 0 } } true 0).2.1 =
      some (("ab" : String).toList ++ [Char.ofNat 0]) ∧
    szSub1 0 = 2 ^ 64 - 1 ∧
    (("ab" : String).toList ++ [Char.ofNat 0]).length = ("ab" : String).length + 1 ∧
    0 < ("ab" : String).length + 1 :=
  remove_head_cap_zero_writes_full_string
    { heap := [{ value := "ab", next := none }],
      q := { head := some 0, count := 1, last_element := some 0 } }
    0 { value := "ab", next := none } rfl rfl (by decide)

/-- C5 counterexample: a capacity of 0 is smaller than the stored string
plus terminator, the removal succeeds, yet 3 bytes are written — the
claim's "never writing past the buffer's capacity" fails at capacity
0. -/
theorem remove_head_cap_zero_overruns :
    (q_remove_head
        { heap := [{ value := "ab", next := none }],
          q := { head := some 0, count := 1, last_element := some 0 } } true 0).1 = true ∧
    (q_remove_head
        { heap := [{ value := "ab", next := none }],
          q := { head := some 0, count := 1, last_element := some 0 } } true 0).2.1 =
      some ['a', 'b', Char.ofNat 0] ∧
    ¬ (['a', 'b', Char.ofNat 0].length ≤ 0) := by
  decide

/-- C5 amended: for a buffer of capacity at least 1 (and representable
in `size_t`) that is smaller than the stored string plus terminator, a
successful `q_remove_head` copies exactly
`min(length(head.value), capacity - 1)` bytes plus a terminator, for a
total of exactly `capacity` bytes — never past the buffer's capacity;
truncation is silent (the call still succeeds). -/
theorem remove_head_truncates_within_capacity (s : State) (a : Nat) (nd : Node) (cap : Nat)
    (hh : s.q.head = some a) (hn : s.heap[a]? = some nd)
    (hcap1 : 1 ≤ cap) (hcap64 : cap ≤ 2 ^ 64) (hsmall : cap < nd.value.length + 1) :
    (q_remove_head s true cap).1 = true ∧
    (q_remove_head s true cap).2.1 =
      some (nd.value.toList.take (min nd.value.length (cap - 1)) ++ [Char.ofNat 0]) ∧
    (writeOut nd.value cap).length = cap := by
  have hsz : szSub1 cap = cap - 1 := szSub1_eq hcap1 hcap64
  have hreal : realBufsize nd.value.length cap = cap - 1 := by
    rw [realBufsize, hsz]
    have hnot : ¬ nd.value.length < cap - 1 := by omega
    simp [hnot]
  have hmin : min nd.value.length (cap - 1) = cap - 1 :=
    Nat.min_eq_right (by omega)
  have hwlen : (writeOut nd.value cap).length = cap := by
    rw [writeOut, hreal]
    have hl : nd.value.toList.length = nd.value.length := rfl
    simp [List.length_take, hl]
    omega
  refine ⟨?_, ?_, hwlen⟩
  · simp [q_remove_head, hh, hn]
  · simp [q_remove_head, hh, hn, writeOut, hreal, hmin]

/-- Witness for the amended C5: stored string `"abcd"`, capacity 3:
exactly `'a'`, `'b'` and the terminator are written. -/
theorem remove_head_truncates_within_capacity_witness :
    (q_remove_head
        { heap := [{ value := "abcd", next := none }],
          q := { head := some 0, count := 1, last_element := some 0 } } true 3).1 = true ∧
    (q_remove_head
        { heap := [{ value := "abcd", next := none }],
          q := { head := some 0, count := 1, last_element := some 0 } } true 3).2.1 =
      some (("abcd" : String).toList.take (min ("abcd" : String).length (3 - 1)) ++
        [Char.ofNat 0]) ∧
    (writeOut "abcd" 3).length = 3 :=
  remove_head_truncates_within_capacity
    { heap := [{ value := "abcd", next := none }],
      q := { head := some 0, count := 1, last_element := some 0 } }
    0 { value := "abcd", next := none } 3 rfl rfl (by decide) (by norm_num)
    (by decide)

/-! ### The merge tie-break -/

/-- Once `merge` is non-NULL the loop never reassigns `start`. -/
theorem mergeLoop_start_of_mrg_some :
    ∀ (fuel : Nat) (h : Heap) (start : Option Nat) (m : Nat) (left right : Option Nat),
      (mergeLoop h start (some m) left right fuel).2 = start := by
  intro fuel
  induction fuel with
  | zero => intro h start m left right; cases left <;> cases right <;> rfl
  | succ fuel ih =>
    intro h start m left right
    cases left with
    | none =>
      cases right with
      | none => rfl
      | some r => simp only [mergeLoop]; exact ih ..
    | some l =>
      cases right with
      | none => simp only [mergeLoop]; exact ih ..
      | some r =>
        simp only [mergeLoop]
        split
        · exact ih ..
        · exact ih ..

/-- C1 counterexample: two elements with the equal value `"x"` are
inserted, first A (getting address 0) and then B (address 1); after
`q_sort` the chain is `[1, 0]`, i.e. B precedes A — the claim's "after
sort A still precedes B" is false at this input. -/
theorem sort_stability_counterexample :
    ((q_insert_tail true true (q_insert_tail true true q_new "x").2 "x").2.q.head =
        some 0) ∧
    valueOf (q_insert_tail true true (q_insert_tail true true q_new "x").2 "x").2.heap 0 =
      "x" ∧
    valueOf (q_insert_tail true true (q_insert_tail true true q_new "x").2 "x").2.heap 1 =
      "x" ∧
    chain (q_insert_tail true true (q_insert_tail true true q_new "x").2 "x").2.heap
        (some 0) 3 = some [0, 1] ∧
    chain (q_sort (q_insert_tail true true (q_insert_tail true true q_new "x").2 "x").2).heap
        (q_sort (q_insert_tail true true (q_insert_tail true true q_new "x").2 "x").2).q.head
        3 = some [1, 0] := by
  decide

/-- C1 amended: in the merge step, on an equal comparison (`comparator`
returns 0, so the strict `< 0` test fails) the front node of the RIGHT
(second) sub-chain is taken before the front node of the left sub-chain
and becomes the head of the merged chain — `mergesort` is therefore not
stable: equal-valued elements inserted A before B come out B before A,
as in the two-element run of the counterexample. -/
theorem merge_equal_takes_right (h : Heap) (start : Option Nat) (l r : Nat) (fuel : Nat)
    (heq : comparator h l r = 0) :
    (mergeLoop h start none (some l) (some r) (fuel + 1)).2 = some r := by
  have hlt : ¬ comparator h l r < 0 := by omega
  simp only [mergeLoop]
  rw [if_neg hlt]
  exact mergeLoop_start_of_mrg_some ..

/-- Witness for the amended C1 on a concrete two-node heap with equal
values. -/
theorem merge_equal_takes_right_witness :
    comparator [({ value := "x", next := some 1 } : Node), { value := "x", next := none }]
        0 1 = 0 ∧
    (mergeLoop [({ value := "x", next := some 1 } : Node), { value := "x", next := none }]
        (some 0) none (some 0) (some 1) 3).2 = some 1 :=
  ⟨by decide,
    merge_equal_takes_right
      [{ value := "x", next := some 1 }, { value := "x", next := none }]
      (some 0) 0 1 2 (by decide)⟩

/-! ### FIFO behaviour of tail inserts -/

/-- C7 counterexample: on a NON-empty queue (here one already holding
`"z"`), inserting `"a"` and then `"b"` at the tail and removing from the
head yields `"z"` first, not `"a"` — the claim quantified over every
queue fails on any non-empty queue. -/
theorem fifo_counterexample :
    ((q_remove_head
        (q_insert_tail true true
          (q_insert_tail true true (q_insert_head true true q_new "z").2 "a").2 "b").2
        true 8).1 = true) ∧
    ((q_remove_head
        (q_insert_tail true true
          (q_insert_tail true true (q_insert_head true true q_new "z").2 "a").2 "b").2
        true 8).2.1 = some ['z', Char.ofNat 0]) ∧
    some ['z', Char.ofNat 0] ≠ some ['a', Char.ofNat 0] := by
  decide

/-- C7 amended: tail insertion is first-in-first-out for every EMPTY
queue (satisfying the representation invariant) and strings shorter
than `2^31` bytes (so the `int len = strlen(s)` cast of the inserts is
lossless): after `insert_tail` of `s1` then `s2`, two successive
`remove_head` calls (with sufficiently large buffers) succeed and copy
`s1` and then `s2`. -/
theorem insert_tail_fifo_from_empty (s : State) (va vb : String) (n1 n2 : Nat)
    (hs : RepOk s) (hempty : s.q.head = none)
    (hn1 : va.length + 1 <= n1) (hn1b : n1 <= 2 ^ 64)
    (hn2 : vb.length + 1 <= n2) (hn2b : n2 <= 2 ^ 64)
    (hva31 : va.length < 2 ^ 31) (hvb31 : vb.length < 2 ^ 31) :
    ((q_remove_head (q_insert_tail true true (q_insert_tail true true s va).2 vb).2
        true n1).1 = true) ∧
    ((q_remove_head (q_insert_tail true true (q_insert_tail true true s va).2 vb).2
        true n1).2.1 = some (va.toList ++ [Char.ofNat 0])) ∧
    ((q_remove_head
        (q_remove_head (q_insert_tail true true (q_insert_tail true true s va).2 vb).2
          true n1).2.2 true n2).1 = true) ∧
    ((q_remove_head
        (q_remove_head (q_insert_tail true true (q_insert_tail true true s va).2 vb).2
          true n1).2.2 true n2).2.1 = some (vb.toList ++ [Char.ofNat 0])) := by
  have hlast : s.q.last_element = none := repOk_last_none_of_head_none hs hempty
  have hsa : storedStr va = va := storedStr_small hva31
  have hsb : storedStr vb = vb := storedStr_small hvb31
  have e1 : (q_insert_tail true true s va).2 =
      { heap := s.heap ++ [{ value := va, next := none }],
        q := { head := some s.heap.length, count := s.q.count + 1,
               last_element := some s.heap.length } } := by
    simp [q_insert_tail, hlast, hempty, hsa]
  have hbig : (s.heap ++ [{ value := va, next := none },
      { value := vb, next := none }])[s.heap.length]? =
      some { value := va, next := none } := by
    rw [List.getElem?_append_right (le_refl _)]
    simp
  have hbig2 : (s.heap ++ [{ value := va, next := none },
      { value := vb, next := none }])[s.heap.length + 1]? =
      some { value := vb, next := none } := by
    rw [List.getElem?_append_right (by omega)]
    simp
  have e2 : (q_insert_tail true true (q_insert_tail true true s va).2 vb).2 =
      { heap := setNext (s.heap ++ [{ value := va, next := none },
            { value := vb, next := none }]) s.heap.length (some (s.heap.length + 1)),
        q := { head := some s.heap.length, count := s.q.count + 1 + 1,
               last_element := some (s.heap.length + 1) } } := by
    rw [e1]
    simp [q_insert_tail, hsb]
  have hL2 : (setNext (s.heap ++ [{ value := va, next := none },
      { value := vb, next := none }]) s.heap.length
        (some (s.heap.length + 1)))[s.heap.length]? =
      some { value := va, next := some (s.heap.length + 1) } :=
    getElem?_setNext_self hbig
  have hL3 : (setNext (s.heap ++ [{ value := va, next := none },
      { value := vb, next := none }]) s.heap.length
        (some (s.heap.length + 1)))[s.heap.length + 1]? =
      some { value := vb, next := none } := by
    rw [getElem?_setNext_ne (by omega)]
    exact hbig2
  rw [e2]
  have r1 : q_remove_head
      { heap := setNext (s.heap ++ [{ value := va, next := none },
            { value := vb, next := none }]) s.heap.length (some (s.heap.length + 1)),
        q := { head := some s.heap.length, count := s.q.count + 1 + 1,
               last_element := some (s.heap.length + 1) } } true n1 =
      (true, some (writeOut va n1),
        { heap := setNext (s.heap ++ [{ value := va, next := none },
              { value := vb, next := none }]) s.heap.length (some (s.heap.length + 1)),
          q := { head := some (s.heap.length + 1), count := s.q.count + 1,
                 last_element := some (s.heap.length + 1) } }) := by
    simp [q_remove_head, hL2]
  rw [r1]
  have r2 : q_remove_head
      { heap := setNext (s.heap ++ [{ value := va, next := none },
            { value := vb, next := none }]) s.heap.length (some (s.heap.length + 1)),
        q := { head := some (s.heap.length + 1), count := s.q.count + 1,
               last_element := some (s.heap.length + 1) } } true n2 =
      (true, some (writeOut vb n2),
        { heap := setNext (s.heap ++ [{ value := va, next := none },
              { value := vb, next := none }]) s.heap.length (some (s.heap.length + 1)),
          q := { head := none, count := s.q.count,
                 last_element := none } }) := by
    simp [q_remove_head, hL3]
  rw [r2]
  refine ⟨rfl, ?_, rfl, ?_⟩
  · rw [writeOut_full hn1 hn1b]
  · rw [writeOut_full hn2 hn2b]

/-- Witness for the amended C7 at the concrete empty queue with `"a"`,
`"b"` and buffers of capacity 8. -/
theorem insert_tail_fifo_from_empty_witness :
    ((q_remove_head (q_insert_tail true true (q_insert_tail true true q_new "a").2 "b").2
        true 8).1 = true) ∧
    ((q_remove_head (q_insert_tail true true (q_insert_tail true true q_new "a").2 "b").2
        true 8).2.1 = some (("a" : String).toList ++ [Char.ofNat 0])) ∧
    ((q_remove_head
        (q_remove_head (q_insert_tail true true (q_insert_tail true true q_new "a").2 "b").2
          true 8).2.2 true 8).1 = true) ∧
    ((q_remove_head
        (q_remove_head (q_insert_tail true true (q_insert_tail true true q_new "a").2 "b").2
          true 8).2.2 true 8).2.1 = some (("b" : String).toList ++ [Char.ofNat 0])) :=
  insert_tail_fifo_from_empty q_new "a" "b" 8 8 ⟨[], IsChain.nil, rfl, rfl⟩ rfl
    (by decide) (by norm_num) (by decide) (by norm_num) (by decide) (by decide)

/-! ### Preservation of the representation invariant -/

/-- Appending a fresh tail node: if the chain of `p` is `l` ending in
`m`, and the heap is changed so that `m` now links to a fresh node `A`
whose own link is NULL while every other chain node is untouched, then
the chain of `p` becomes `l ++ [A]`. -/
theorem isChain_snoc {h h' : Heap} {p : Option Nat} {l : List Nat} {m A : Nat}
    (hc : IsChain h p l) (hnd : l.Nodup) (hlast : l.getLast? = some m) (hA : A ∉ l)
    (hfr : ∀ b ∈ l, b ≠ m → h'[b]? = h[b]?)
    (hm : ∃ nd, h[m]? = some nd ∧ h'[m]? = some { nd with next := some A })
    (hAnd : ∃ ndA, h'[A]? = some ndA ∧ ndA.next = none) :
    IsChain h' p (l ++ [A]) := by
  induction hc with
  | nil => simp at hlast
  | @cons a nd l hget htail ih =>
    rcases hAnd with ⟨ndA, hA', hAn⟩
    cases l with
    | nil =>
      simp at hlast
      subst hlast
      rcases hm with ⟨nd0, hnd0, hm'⟩
      rw [hget] at hnd0
      cases hnd0
      refine IsChain.cons hm' ?_
      exact IsChain.cons hA' (hAn ▸ IsChain.nil)
    | cons b l' =>
      rw [List.getLast?_cons_cons] at hlast
      have hmtail : m ∈ b :: l' := List.mem_of_getLast?_eq_some hlast
      have hane : a ≠ m := by
        intro hh
        subst hh
        exact (List.nodup_cons.mp hnd).1 hmtail
      have hga : h'[a]? = some nd := by
        rw [hfr a (by simp) hane]
        exact hget
      rw [List.cons_append]
      refine IsChain.cons hga ?_
      exact ih (List.nodup_cons.mp hnd).2 hlast
        (fun hmem => hA (List.mem_cons_of_mem _ hmem))
        (fun c hc' hcne => hfr c (List.mem_cons_of_mem _ hc') hcne)

theorem repOk_insert_head (s : State) (str : String) (hs : RepOk s) :
    RepOk (q_insert_head true true s str).2 := by
  rcases hs with ⟨l, hc, hcount, hlast⟩
  refine ⟨s.heap.length :: l, ?_, ?_, ?_⟩
  · show IsChain (q_insert_head true true s str).2.heap
      (q_insert_head true true s str).2.q.head (s.heap.length :: l)
    simp only [q_insert_head, Bool.not_true, Bool.false_eq_true, if_false]
    refine IsChain.cons (List.getElem?_concat_length ..) ?_
    exact isChain_frame
      (fun b hb => List.getElem?_append_left (isChain_mem_lt hc b hb)) hc
  · simp [q_insert_head, hcount]
  · simp only [q_insert_head, Bool.not_true, Bool.false_eq_true, if_false]
    cases hh : s.q.head with
    | none =>
      rw [hh] at hc
      rw [isChain_none hc]
      simp
    | some b =>
      rw [hh] at hc
      rcases isChain_some hc with ⟨nd, l', hget, rfl, _⟩
      simpa using hlast

theorem repOk_insert_tail (s : State) (str : String) (hs : RepOk s) :
    RepOk (q_insert_tail true true s str).2 := by
  rcases hs with ⟨l, hc, hcount, hlast⟩
  cases hl : s.q.last_element with
  | none =>
    have hnil : l = [] := by
      rw [hl] at hlast
      exact List.getLast?_eq_none_iff.mp hlast.symm
    subst hnil
    have hcz : s.q.count = 0 := by simpa using hcount
    refine ⟨[s.heap.length], ?_, ?_, ?_⟩
    · show IsChain (q_insert_tail true true s str).2.heap
        (q_insert_tail true true s str).2.q.head [s.heap.length]
      simp only [q_insert_tail, Bool.not_true, Bool.false_eq_true, if_false, hl]
      exact IsChain.cons (List.getElem?_concat_length ..) IsChain.nil
    · simp [q_insert_tail, hl, hcz]
    · simp [q_insert_tail, hl]
  | some la =>
    have hlastl : l.getLast? = some la := by rw [hl] at hlast; exact hlast.symm
    have hmem : la ∈ l := List.mem_of_getLast?_eq_some hlastl
    have hgetla : ∃ ndla, s.heap[la]? = some ndla := by
      rcases isChain_mem_suffix hc la hmem with ⟨t, ht, _⟩
      rcases isChain_some ht with ⟨ndla, _, hgl, _, _⟩
      exact ⟨ndla, hgl⟩
    rcases hgetla with ⟨ndla, hgl⟩
    have hchain : IsChain (setNext (s.heap ++ [{ value := storedStr str, next := none }])
        la (some s.heap.length)) s.q.head (l ++ [s.heap.length]) := by
      refine isChain_snoc hc (isChain_nodup hc) hlastl
        (fun hmem2 => by have := isChain_mem_lt hc _ hmem2; omega) ?_ ?_ ?_
      · intro b hb hbne
        rw [getElem?_setNext_ne hbne]
        exact List.getElem?_append_left (isChain_mem_lt hc b hb)
      · refine ⟨ndla, hgl, ?_⟩
        have : (s.heap ++ [{ value := storedStr str, next := none }])[la]? = some ndla :=
          (List.getElem?_append_left (isChain_mem_lt hc la hmem)).trans hgl
        exact getElem?_setNext_self this
      · refine ⟨{ value := storedStr str, next := none }, ?_, rfl⟩
        rw [getElem?_setNext_ne (by have := isChain_mem_lt hc la hmem; omega)]
        exact List.getElem?_concat_length ..
    refine ⟨l ++ [s.heap.length], ?_, ?_, ?_⟩
    · show IsChain (q_insert_tail true true s str).2.heap
        (q_insert_tail true true s str).2.q.head (l ++ [s.heap.length])
      simp only [q_insert_tail, Bool.not_true, Bool.false_eq_true, if_false, hl]
      exact hchain
    · simp [q_insert_tail, hl, hcount]
    · simp [q_insert_tail, hl, List.getLast?_concat]

theorem repOk_remove_head (s : State) (sp : Bool) (n : Nat) (hs : RepOk s) :
    RepOk (q_remove_head s sp n).2.2 := by
  rcases hs with ⟨l, hc, hcount, hlast⟩
  cases hh : s.q.head with
  | none =>
    have : q_remove_head s sp n = (false, none, s) := by simp [q_remove_head, hh]
    rw [this]
    exact ⟨l, hh ▸ hc, hcount, hlast⟩
  | some a =>
    rw [hh] at hc
    rcases isChain_some hc with ⟨nd, l', hget, rfl, htail⟩
    have e : (q_remove_head s sp n).2.2 =
        { heap := s.heap,
          q := { head := nd.next, count := s.q.count - 1,
                 last_element := if nd.next = none then none
                   else s.q.last_element } } := by
      simp [q_remove_head, hh, hget]
    rw [e]
    refine ⟨l', htail, ?_, ?_⟩
    · simp only []
      rw [hcount]
      push_cast [List.length_cons]
      omega
    · cases hn : nd.next with
      | none =>
        rw [hn] at htail
        rw [isChain_none htail]
        simp
      | some b =>
        rw [hn] at htail
        rcases isChain_some htail with ⟨nd2, l2, _, rfl, _⟩
        simpa using hlast

/-! ### Reversal -/

theorem isChain_head {h : Heap} {p : Option Nat} {l : List Nat} (hc : IsChain h p l) :
    p = l.head? := by
  cases hc <;> rfl

/-- Loop invariant of the pointer-reversal loop: if the chain of `cur`
is `l` and the chain of `prev` is `m`, all nodes distinct, the loop
ends with the chain `l.reverse ++ m`, changing only `next` fields. -/
theorem reverseLoop_sim :
    ∀ (l : List Nat) (h : Heap) (prev cur : Option Nat) (m : List Nat) (fuel : Nat),
      IsChain h cur l → IsChain h prev m → (l ++ m).Nodup → l.length ≤ fuel →
      IsChain (reverseLoop h prev cur fuel).1 (reverseLoop h prev cur fuel).2
        (l.reverse ++ m) ∧
      (∀ b, valueOf (reverseLoop h prev cur fuel).1 b = valueOf h b) ∧
      (reverseLoop h prev cur fuel).1.length = h.length := by
  intro l
  induction l with
  | nil =>
    intro h prev cur m fuel hcur hprev hnd _
    have hc : cur = none := isChain_nil_ptr hcur
    subst hc
    cases fuel with
    | zero => exact ⟨by simpa using hprev, fun b => rfl, rfl⟩
    | succ f => exact ⟨by simpa using hprev, fun b => rfl, rfl⟩
  | cons a l' ih =>
    intro h prev cur m fuel hcur hprev hnd hfuel
    cases hcur with
    | @cons _ nd _ hget htail =>
      cases fuel with
      | zero => simp at hfuel
      | succ f =>
        have hstep : reverseLoop h prev (some a) (f + 1) =
            reverseLoop (h.set a { nd with next := prev }) (some a) nd.next f := by
          rw [reverseLoop, hget]
        have hset : h.set a { nd with next := prev } = setNext h a prev := by
          simp [setNext, hget]
        rw [hstep, hset]
        rw [List.cons_append] at hnd
        rcases List.nodup_cons.mp hnd with ⟨hamem, hndrest⟩
        have htail1 : IsChain (setNext h a prev) nd.next l' :=
          isChain_frame (fun b hb => getElem?_setNext_ne
            (fun hba => hamem (hba ▸ List.mem_append_left m hb))) htail
        have hprev1 : IsChain (setNext h a prev) (some a) (a :: m) := by
          refine IsChain.cons (getElem?_setNext_self hget) ?_
          exact isChain_frame (fun b hb => getElem?_setNext_ne
            (fun hba => hamem (hba ▸ List.mem_append_right l' hb))) hprev
        have hnd1 : (l' ++ a :: m).Nodup := List.nodup_middle.mpr hnd
        have hf1 : l'.length ≤ f := by simpa using hfuel
        rcases ih (setNext h a prev) (some a) nd.next (a :: m) f htail1 hprev1 hnd1 hf1
          with ⟨hch, hval, hlen⟩
        refine ⟨?_, ?_, ?_⟩
        · rw [List.reverse_cons, List.append_assoc, List.singleton_append]
          exact hch
        · intro b
          rw [hval b, valueOf_setNext]
        · rw [hlen, length_setNext]

/-- Effect of `q_reverse` on the chain: the address list is reversed,
values and arena size are untouched, `count` is unchanged and
`last_element` becomes the former head. -/
theorem q_reverse_spec (s : State) (l : List Nat) (hc : IsChain s.heap s.q.head l) :
    IsChain (q_reverse s).heap (q_reverse s).q.head l.reverse ∧
    (∀ b, valueOf (q_reverse s).heap b = valueOf s.heap b) ∧
    (q_reverse s).heap.length = s.heap.length ∧
    (q_reverse s).q.count = s.q.count ∧
    (q_reverse s).q.last_element = s.q.head := by
  have hnd : (l ++ []).Nodup := by simpa using isChain_nodup hc
  have hfl : l.length ≤ s.heap.length + 1 := le_trans (isChain_length_le hc) (by omega)
  rcases reverseLoop_sim l s.heap none s.q.head [] (s.heap.length + 1) hc IsChain.nil hnd
    hfl with ⟨hch, hval, hlen⟩
  exact ⟨by simpa using hch, hval, hlen, rfl, rfl⟩

theorem repOk_reverse (s : State) (hs : RepOk s) : RepOk (q_reverse s) := by
  rcases hs with ⟨l, hc, hcount, hlast⟩
  rcases q_reverse_spec s l hc with ⟨hch, _, _, hcnt, hle⟩
  refine ⟨l.reverse, hch, ?_, ?_⟩
  · rw [hcnt, hcount]
    simp
  · rw [hle, List.getLast?_reverse]
    exact isChain_head hc

theorem qVals_of_isChain {s : State} {l : List Nat} (hc : IsChain s.heap s.q.head l) :
    qVals s = some (l.map (valueOf s.heap)) := by
  unfold qVals
  rw [chain_of_isChain hc (s.heap.length + 1) (by have := isChain_length_le hc; omega)]
  rfl

/-- C6: for every queue satisfying the representation invariant,
`q_reverse` leaves `count` unchanged, reverses the value sequence
exactly, swaps head and tail (the former head becomes `last_element`
and the former `last_element` becomes head), and applying it twice
restores the original value sequence. -/
theorem q_reverse_reverses (s : State) (hs : RepOk s) :
    (q_reverse s).q.count = s.q.count ∧
    qVals (q_reverse s) = (qVals s).map List.reverse ∧
    (q_reverse s).q.last_element = s.q.head ∧
    (q_reverse s).q.head = s.q.last_element ∧
    qVals (q_reverse (q_reverse s)) = qVals s := by
  rcases hs with ⟨l, hc, hcount, hlast⟩
  rcases q_reverse_spec s l hc with ⟨hch, hval, hlen, hcnt, hle⟩
  have hv1 : qVals s = some (l.map (valueOf s.heap)) := qVals_of_isChain hc
  have hv2 : qVals (q_reverse s) = some (l.reverse.map (valueOf (q_reverse s).heap)) :=
    qVals_of_isChain hch
  have hmap : l.reverse.map (valueOf (q_reverse s).heap) =
      (l.map (valueOf s.heap)).reverse := by
    rw [List.map_reverse]
    congr 1
    exact List.map_congr_left fun b _ => hval b
  refine ⟨hcnt, ?_, hle, ?_, ?_⟩
  · rw [hv2, hv1, hmap]
    rfl
  · rw [isChain_head hch, List.head?_reverse, hlast]
  · rcases q_reverse_spec (q_reverse s) l.reverse hch with ⟨hch2, hval2, _, _, _⟩
    have hv3 : qVals (q_reverse (q_reverse s)) =
        some (l.reverse.reverse.map (valueOf (q_reverse (q_reverse s)).heap)) :=
      qVals_of_isChain hch2
    rw [hv3, hv1, List.reverse_reverse]
    congr 1
    exact List.map_congr_left fun b _ => (hval2 b).trans (hval b)

/-- Witness for C6 at a concrete two-element queue. -/
theorem q_reverse_reverses_witness :
    (q_reverse { heap := [{ value := "a", next := some 1 }, { value := "b", next := none }], q := { head := some 0, count := 2, last_element := some 1 } }).q.count = ({ heap := [{ value := "a", next := some 1 }, { value := "b", next := none }], q := { head := some 0, count := 2, last_element := some 1 } } : State).q.count ∧
    qVals (q_reverse { heap := [{ value := "a", next := some 1 }, { value := "b", next := none }], q := { head := some 0, count := 2, last_element := some 1 } }) = (qVals { heap := [{ value := "a", next := some 1 }, { value := "b", next := none }], q := { head := some 0, count := 2, last_element := some 1 } }).map List.reverse ∧
    (q_reverse { heap := [{ value := "a", next := some 1 }, { value := "b", next := none }], q := { head := some 0, count := 2, last_element := some 1 } }).q.last_element = ({ heap := [{ value := "a", next := some 1 }, { value := "b", next := none }], q := { head := some 0, count := 2, last_element := some 1 } } : State).q.head ∧
    (q_reverse { heap := [{ value := "a", next := some 1 }, { value := "b", next := none }], q := { head := some 0, count := 2, last_element := some 1 } }).q.head = ({ heap := [{ value := "a", next := some 1 }, { value := "b", next := none }], q := { head := some 0, count := 2, last_element := some 1 } } : State).q.last_element ∧
    qVals (q_reverse (q_reverse { heap := [{ value := "a", next := some 1 }, { value := "b", next := none }], q := { head := some 0, count := 2, last_element := some 1 } })) = qVals { heap := [{ value := "a", next := some 1 }, { value := "b", next := none }], q := { head := some 0, count := 2, last_element := some 1 } } :=
  q_reverse_reverses { heap := [{ value := "a", next := some 1 }, { value := "b", next := none }], q := { head := some 0, count := 2, last_element := some 1 } }
    ⟨[0, 1], IsChain.cons rfl (IsChain.cons rfl IsChain.nil), rfl, rfl⟩

/-! ### The strcmp order -/

theorem strcmpL_neg : ∀ l m : List Char, strcmpL l m = - strcmpL m l
  | [], [] => rfl
  | [], _ :: _ => rfl
  | _ :: _, [] => rfl
  | a :: as, b :: bs => by
    by_cases h1 : a < b
    · have h2 : ¬ b < a := asymm h1
      simp [strcmpL, h1, h2]
    · by_cases h2 : b < a
      · simp [strcmpL, h1, h2]
      · simp [strcmpL, h1, h2, strcmpL_neg as bs]

theorem strcmpL_eq_zero : ∀ l m : List Char, strcmpL l m = 0 ↔ l = m
  | [], [] => by simp [strcmpL]
  | [], _ :: _ => by simp [strcmpL]
  | _ :: _, [] => by simp [strcmpL]
  | a :: as, b :: bs => by
    by_cases h1 : a < b
    · have : a ≠ b := ne_of_lt h1
      simp [strcmpL, h1, this]
    · by_cases h2 : b < a
      · have : a ≠ b := (ne_of_lt h2).symm
        simp [strcmpL, h1, h2, this]
      · have hab : a = b := le_antisymm (not_lt.mp h2) (not_lt.mp h1)
        subst hab
        simp [strcmpL, strcmpL_eq_zero as bs]

theorem strcmpL_trans : ∀ l m k : List Char,
    strcmpL l m ≤ 0 → strcmpL m k ≤ 0 → strcmpL l k ≤ 0
  | [], m, k => fun _ _ => by cases k <;> simp [strcmpL]
  | _ :: _, [], _ => fun h _ => by simp [strcmpL] at h
  | _ :: _, _ :: _, [] => fun _ h => by simp [strcmpL] at h
  | a :: as, b :: bs, c :: cs => by
    intro h1 h2
    have hba : ¬ b < a := by
      intro hba
      rw [strcmpL, if_neg (asymm hba), if_pos hba] at h1
      omega
    have hcb : ¬ c < b := by
      intro hcb
      rw [strcmpL, if_neg (asymm hcb), if_pos hcb] at h2
      omega
    by_cases hac : a < c
    · simp [strcmpL, hac]
    · have hab2 : a ≤ b := not_lt.mp hba
      have hbc2 : b ≤ c := not_lt.mp hcb
      have hac2 : a ≤ c := le_trans hab2 hbc2
      have hac' : a = c := le_antisymm hac2 (not_lt.mp hac)
      have hab : a = b := le_antisymm hab2 (hac' ▸ hbc2)
      subst hab
      subst hac'
      rw [strcmpL, if_neg (lt_irrefl a), if_neg (lt_irrefl a)] at h1 h2 ⊢
      exact strcmpL_trans as bs cs h1 h2

theorem strcmpI_antisymm {a b : String} (h1 : strcmpI a b ≤ 0) (h2 : strcmpI b a ≤ 0) :
    a = b := by
  have hz : strcmpL a.data b.data = 0 := by
    have := strcmpL_neg a.data b.data
    unfold strcmpI at h1 h2
    omega
  exact String.toList_inj.mp ((strcmpL_eq_zero a.data b.data).mp hz)

theorem strcmpI_flip_le {a b : String} (h : ¬ strcmpI a b < 0) : strcmpI b a ≤ 0 := by
  have := strcmpL_neg a.data b.data
  unfold strcmpI at h ⊢
  omega

theorem strcmpI_trans_le {a b c : String} (h1 : strcmpI a b ≤ 0) (h2 : strcmpI b c ≤ 0) :
    strcmpI a c ≤ 0 :=
  strcmpL_trans a.data b.data c.data h1 h2

/-! ### The functional mirror of the linked merge sort -/

theorem mergeF_nil_left (key : Nat → String) (r : List Nat) : mergeF key [] r = r := by
  cases r <;> simp [mergeF]

theorem mergeF_nil_right (key : Nat → String) (l : List Nat) : mergeF key l [] = l := by
  cases l <;> simp [mergeF]

theorem mergeF_cons_cons (key : Nat → String) (a b : Nat) (as bs : List Nat) :
    mergeF key (a :: as) (b :: bs) =
      if strcmpI (key a) (key b) < 0 then a :: mergeF key as (b :: bs)
      else b :: mergeF key (a :: as) bs := by
  rw [mergeF]

theorem mergeF_perm (key : Nat → String) :
    ∀ l r : List Nat, List.Perm (mergeF key l r) (l ++ r)
  | [], r => by
    rw [mergeF_nil_left, List.nil_append]
  | a :: as, [] => by
    rw [mergeF_nil_right, List.append_nil]
  | a :: as, b :: bs => by
    rw [mergeF_cons_cons]
    split
    · exact List.Perm.cons a (mergeF_perm key as (b :: bs))
    · exact (List.Perm.cons b (mergeF_perm key (a :: as) bs)).trans List.perm_middle.symm
termination_by l r => l.length + r.length

theorem msF_perm (key : Nat → String) : ∀ l : List Nat, List.Perm (msF key l) l
  | [] => by rw [msF]
  | [a] => by rw [msF]
  | a :: b :: rest => by
    rw [msF]
    refine ((mergeF_perm key _ _).trans
      (List.Perm.append
        (msF_perm key ((a :: b :: rest).take (((a :: b :: rest).length + 1) / 2)))
        (msF_perm key ((a :: b :: rest).drop (((a :: b :: rest).length + 1) / 2))))).trans ?_
    rw [List.take_append_drop]
termination_by l => l.length
decreasing_by
  all_goals simp
  all_goals omega

theorem mergeF_sorted (key : Nat → String) :
    ∀ l r : List Nat, List.Pairwise (fun x y => sle (key x) (key y)) l →
      List.Pairwise (fun x y => sle (key x) (key y)) r →
      List.Pairwise (fun x y => sle (key x) (key y)) (mergeF key l r)
  | [], r => fun _ hr => by rwa [mergeF_nil_left]
  | _ :: _, [] => fun hl _ => by rwa [mergeF_nil_right]
  | a :: as, b :: bs => by
    intro hl hr
    rcases List.pairwise_cons.mp hl with ⟨hal, hast⟩
    rcases List.pairwise_cons.mp hr with ⟨hbr, hbst⟩
    rw [mergeF_cons_cons]
    split
    · rename_i hab
      refine List.pairwise_cons.mpr ⟨?_, mergeF_sorted key as (b :: bs) hast hr⟩
      intro x hx
      rcases List.mem_append.mp ((mergeF_perm key as (b :: bs)).mem_iff.mp hx) with
        hx' | hx'
      · exact hal x hx'
      · rcases List.mem_cons.mp hx' with rfl | hx''
        · exact le_of_lt hab
        · exact strcmpI_trans_le (le_of_lt hab) (hbr x hx'')
    · rename_i hab
      refine List.pairwise_cons.mpr ⟨?_, mergeF_sorted key (a :: as) bs hl hbst⟩
      intro x hx
      rcases List.mem_append.mp ((mergeF_perm key (a :: as) bs).mem_iff.mp hx) with
        hx' | hx'
      · rcases List.mem_cons.mp hx' with rfl | hx''
        · exact strcmpI_flip_le hab
        · exact strcmpI_trans_le (strcmpI_flip_le hab) (hal x hx'')
      · exact hbr x hx'
termination_by l r => l.length + r.length

theorem msF_sorted (key : Nat → String) :
    ∀ l : List Nat, List.Pairwise (fun x y => sle (key x) (key y)) (msF key l)
  | [] => by rw [msF]; exact List.Pairwise.nil
  | [a] => by rw [msF]; simp
  | a :: b :: rest => by
    rw [msF]
    exact mergeF_sorted key _ _
      (msF_sorted key ((a :: b :: rest).take (((a :: b :: rest).length + 1) / 2)))
      (msF_sorted key ((a :: b :: rest).drop (((a :: b :: rest).length + 1) / 2)))
termination_by l => l.length
decreasing_by
  all_goals simp
  all_goals omega

/-! ### Chain splitting -/

theorem isChain_mem_valid {h : Heap} {p : Option Nat} {l : List Nat} (hc : IsChain h p l) :
    ∀ a ∈ l, ∃ nd, h[a]? = some nd := by
  induction hc with
  | nil => simp
  | @cons a nd l hget htail ih =>
    intro b hb
    rcases List.mem_cons.mp hb with rfl | hb
    · exact ⟨nd, hget⟩
    · exact ih b hb

/-- Every suffix of a chain is a chain (from the pointer that is its
head, NULL when the suffix is empty). -/
theorem isChain_drop {h : Heap} {p : Option Nat} {l : List Nat} (hc : IsChain h p l) :
    ∀ k, IsChain h (l.drop k).head? (l.drop k) := by
  induction hc with
  | nil => intro k; simpa using IsChain.nil
  | @cons a nd l hget htail ih =>
    intro k
    cases k with
    | zero => simpa using IsChain.cons hget htail
    | succ k => simpa using ih k

/-- Cutting the `next` link of the node at position `k - 1` turns the
first `k` nodes into a chain of their own. -/
theorem isChain_take {h : Heap} {p : Option Nat} {l : List Nat} (hc : IsChain h p l)
    (hnd : l.Nodup) :
    ∀ k sl, 0 < k → l[k - 1]? = some sl → IsChain (setNext h sl none) p (l.take k) := by
  induction hc with
  | nil => intro k sl _ hsl; simp at hsl
  | @cons a nd l hget htail ih =>
    intro k sl hk hsl
    cases k with
    | zero => omega
    | succ k' =>
      cases k' with
      | zero =>
        simp at hsl
        subst hsl
        refine IsChain.cons (getElem?_setNext_self hget) ?_
        exact IsChain.nil
      | succ k'' =>
        have hsl' : l[k'']? = some sl := by simpa using hsl
        have hslmem : sl ∈ l := List.getElem?_mem hsl'
        have hslne : sl ≠ a := by
          intro hh
          exact (List.nodup_cons.mp hnd).1 (hh ▸ hslmem)
        rw [List.take_succ_cons]
        refine IsChain.cons (by rw [getElem?_setNext_ne (Ne.symm hslne)]; exact hget) ?_
        exact ih (List.nodup_cons.mp hnd).2 (k'' + 1) sl (by omega) (by simpa using hsl')

/-- The slow/fast scan lands on the node at index `(n - 1) / 2` of the
slow chain, where `n` is the length of the fast chain. -/
theorem splitLoop_sim :
    ∀ (fuel : Nat) (h : Heap) (s f : Nat) (ls lf : List Nat),
      IsChain h (some s) ls → IsChain h (some f) lf →
      lf.length ≤ 2 * ls.length - 1 → lf.length ≤ fuel →
      ls[(lf.length - 1) / 2]? = some (splitLoop h s f fuel) := by
  intro fuel
  induction fuel with
  | zero =>
    intro h s f ls lf hcs hcf hb hf
    rcases isChain_some hcf with ⟨_, _, _, rfl, _⟩
    simp at hf
  | succ fuel ih =>
    intro h s f ls lf hcs hcf hb hf
    rcases isChain_some hcf with ⟨ndf, lf₁, hgf, rfl, htf⟩
    rcases isChain_some hcs with ⟨nds, ls₁, hgs, rfl, hts⟩
    have hnf : nextOf h f = ndf.next := by simp [nextOf, hgf]
    cases lf₁ with
    | nil =>
      have hend : ndf.next = none := isChain_nil_ptr htf
      have hstep : splitLoop h s f (fuel + 1) = s := by
        rw [splitLoop, hnf, hend]
      rw [hstep]
      simp
    | cons f1 lf₂ =>
      have hnf1 : ndf.next = some f1 := by rw [isChain_head htf]; rfl
      cases (hnf1 ▸ htf) with
      | @cons _ ndf1 _ hgf1 htf1 =>
        have hnf1' : nextOf h f1 = ndf1.next := by simp [nextOf, hgf1]
        cases lf₂ with
        | nil =>
          have hend : ndf1.next = none := isChain_nil_ptr htf1
          have hstep : splitLoop h s f (fuel + 1) = s := by
            simp [splitLoop, hnf, hnf1, hnf1', hend]
          rw [hstep]
          simp
        | cons f2 lf₃ =>
          have hf2 : ndf1.next = some f2 := by rw [isChain_head htf1]; rfl
          cases ls₁ with
          | nil =>
            exfalso
            simp at hb
          | cons s1 ls₂ =>
            have hns : nextOf h s = nds.next := by simp [nextOf, hgs]
            have hs1 : nds.next = some s1 := by rw [isChain_head hts]; rfl
            have hstep : splitLoop h s f (fuel + 1) = splitLoop h s1 f2 fuel := by
              simp [splitLoop, hnf, hnf1, hnf1', hf2, hns, hs1]
            rw [hstep]
            have hcs1 : IsChain h (some s1) (s1 :: ls₂) := hs1 ▸ hts
            have hcf2 : IsChain h (some f2) (f2 :: lf₃) := hf2 ▸ htf1
            have hb' : (f2 :: lf₃).length ≤ 2 * (s1 :: ls₂).length - 1 := by
              simp at hb ⊢
              omega
            have hf' : (f2 :: lf₃).length ≤ fuel := by
              simp at hf ⊢
              omega
            have hrec := ih h s1 f2 (s1 :: ls₂) (f2 :: lf₃) hcs1 hcf2 hb' hf'
            have hidx : ((f :: f1 :: f2 :: lf₃).length - 1) / 2 =
                ((f2 :: lf₃).length - 1) / 2 + 1 := by
              simp
              omega
            rw [hidx, List.getElem?_cons_succ]
            exact hrec

/-- The end-of-chain walk of `q_sort` reaches the chain's last node. -/
theorem lastLoop_spec :
    ∀ (t : List Nat) (h : Heap) (b : Nat) (fuel : Nat),
      IsChain h (some b) (b :: t) → t.length ≤ fuel →
      (b :: t).getLast? = some (lastLoop h b fuel) := by
  intro t
  induction t with
  | nil =>
    intro h b fuel hc _
    cases hc with
    | @cons _ nd _ hget htail =>
      have hn : nd.next = none := isChain_nil_ptr htail
      cases fuel with
      | zero => simp [lastLoop]
      | succ f =>
        have hstep : lastLoop h b (f + 1) = b := by
          rw [lastLoop]
          simp [nextOf, hget, hn]
        rw [hstep]
        simp
  | cons c t' ih =>
    intro h b fuel hc hf
    cases hc with
    | @cons _ nd _ hget htail =>
      have hn : nd.next = some c := by rw [isChain_head htail]; rfl
      cases fuel with
      | zero => simp at hf
      | succ f =>
        have hstep : lastLoop h b (f + 1) = lastLoop h c f := by
          rw [lastLoop]
          simp [nextOf, hget, hn]
        rw [hstep, List.getLast?_cons_cons]
        exact ih h c f (hn ▸ htail) (by simpa using hf)

/-! ### The merge loop -/

/-- Taking node `x` when `merge` already points at `m`, the last node of
the merged prefix `P`: relink `m -> x` and cut `x`'s own link; the
merged chain becomes `P ++ [x]` and nothing outside `{m, x}` changes. -/
theorem mergeTake_some {h : Heap} {start : Option Nat} {P : List Nat} {m x : Nat}
    {ndx : Node}
    (hP : IsChain h start P) (hlastP : P.getLast? = some m) (hndP : P.Nodup)
    (hxP : x ∉ P) (hgx : h[x]? = some ndx) :
    IsChain (setNext (setNext h m (some x)) x none) start (P ++ [x]) ∧
    (∀ b, b ∉ P → b ≠ x → (setNext (setNext h m (some x)) x none)[b]? = h[b]?) := by
  have hmP : m ∈ P := List.mem_of_getLast?_eq_some hlastP
  have hmx : m ≠ x := fun hh => hxP (hh ▸ hmP)
  rcases isChain_mem_valid hP m hmP with ⟨ndm, hgm⟩
  constructor
  · refine isChain_snoc hP hndP hlastP hxP ?_ ?_ ?_
    · intro b hb hbm
      have hbx : b ≠ x := fun hh => hxP (hh ▸ hb)
      rw [getElem?_setNext_ne hbx, getElem?_setNext_ne hbm]
    · refine ⟨ndm, hgm, ?_⟩
      rw [getElem?_setNext_ne hmx]
      exact getElem?_setNext_self hgm
    · refine ⟨{ ndx with next := none }, ?_, rfl⟩
      refine getElem?_setNext_self ?_
      rw [getElem?_setNext_ne (Ne.symm hmx)]
      exact hgx
  · intro b hbP hbx
    have hbm : b ≠ m := fun hh => hbP (hh ▸ hmP)
    rw [getElem?_setNext_ne hbx, getElem?_setNext_ne hbm]

/-- Invariant of the merge loop once `merge` is non-NULL: `start` heads
the merged prefix `P` ending at `m`; the loop appends the functional
merge of the two remaining chains, touching only their nodes. -/
theorem mergeLoop_sim_some :
    ∀ (fuel : Nat) (h : Heap) (key : Nat → String) (start : Option Nat) (m : Nat)
      (left right : Option Nat) (L R P : List Nat),
      IsChain h left L → IsChain h right R → IsChain h start P →
      P.getLast? = some m →
      (P ++ (L ++ R)).Nodup →
      (∀ b, valueOf h b = key b) →
      L.length + R.length ≤ fuel →
      IsChain (mergeLoop h start (some m) left right fuel).1 start
        (P ++ mergeF key L R) ∧
      (mergeLoop h start (some m) left right fuel).2 = start ∧
      (∀ b, valueOf (mergeLoop h start (some m) left right fuel).1 b = key b) ∧
      (mergeLoop h start (some m) left right fuel).1.length = h.length ∧
      (∀ b, b ∉ P ++ (L ++ R) →
        (mergeLoop h start (some m) left right fuel).1[b]? = h[b]?) := by
  intro fuel
  induction fuel with
  | zero =>
    intro h key start m left right L R P hL hR hP hlastP hnd hkey hfuel
    have hL0 : L = [] := List.length_eq_zero.mp (by omega)
    have hR0 : R = [] := List.length_eq_zero.mp (by omega)
    subst hL0
    subst hR0
    have hl : left = none := isChain_nil_ptr hL
    have hr : right = none := isChain_nil_ptr hR
    subst hl
    subst hr
    exact ⟨by simpa [mergeF_nil_left] using hP, rfl, fun b => hkey b, rfl, fun b _ => rfl⟩
  | succ fuel ih =>
    intro h key start m left right L R P hL hR hP hlastP hnd hkey hfuel
    have hPnd : P.Nodup := (List.nodup_append.mp hnd).1
    have hdisj : P.Disjoint (L ++ R) := (List.nodup_append.mp hnd).2.2
    cases hL with
    | nil =>
      cases hR with
      | nil =>
        refine ⟨by simpa [mergeF_nil_left] using hP, rfl, fun b => hkey b, rfl,
          fun b _ => rfl⟩
      | @cons b ndb R' hgb htlb =>
        have hbP : b ∉ P := fun hh => hdisj hh (by simp)
        rcases mergeTake_some hP hlastP hPnd hbP hgb with ⟨hP2, hfr2⟩
        have hstep : mergeLoop h start (some m) none (some b) (fuel + 1) =
            mergeLoop (setNext (setNext h m (some b)) b none) start (some b) none
              (nextOf h b) fuel := by
          simp [mergeLoop]
        rw [hstep]
        have hnxt : nextOf h b = ndb.next := by simp [nextOf, hgb]
        have hRnd : (b :: R').Nodup := by
          have h0 : ([] ++ (b :: R')).Nodup := (List.nodup_append.mp hnd).2.1
          simpa using h0
        have hR'2 : IsChain (setNext (setNext h m (some b)) b none) (nextOf h b) R' := by
          rw [hnxt]
          refine isChain_frame (fun c hc => ?_) htlb
          have hcP : c ∉ P := fun hh => hdisj hh (by simp [hc])
          have hcb : c ≠ b := fun hh => (List.nodup_cons.mp hRnd).1 (hh ▸ hc)
          exact hfr2 c hcP hcb
        have hnd2 : ((P ++ [b]) ++ ([] ++ R')).Nodup := by
          simpa using hnd
        have hkey2 : ∀ c, valueOf (setNext (setNext h m (some b)) b none) c = key c := by
          intro c
          rw [valueOf_setNext, valueOf_setNext]
          exact hkey c
        rcases ih (setNext (setNext h m (some b)) b none) key start b none
          (nextOf h b) [] R' (P ++ [b]) IsChain.nil hR'2 hP2 (List.getLast?_concat _)
          hnd2 hkey2 (by simp at hfuel ⊢; omega) with ⟨c1, c2, c3, c4, c5⟩
        refine ⟨?_, c2, c3, ?_, ?_⟩
        · rw [mergeF_nil_left] at c1 ⊢
          simpa using c1
        · rw [c4, length_setNext, length_setNext]
        · intro c hc
          have hcP : c ∉ P := by simp at hc; tauto
          have hcb : c ≠ b := by simp at hc; tauto
          have hcm : c ∉ (P ++ [b]) ++ ([] ++ R') := by simp at hc ⊢; tauto
          rw [c5 c hcm]
          exact hfr2 c hcP hcb
    | @cons a nda L' hga htla =>
      cases hR with
      | nil =>
        have haP : a ∉ P := fun hh => hdisj hh (by simp)
        rcases mergeTake_some hP hlastP hPnd haP hga with ⟨hP2, hfr2⟩
        have hstep : mergeLoop h start (some m) (some a) none (fuel + 1) =
            mergeLoop (setNext (setNext h m (some a)) a none) start (some a)
              (nextOf h a) none fuel := by
          simp [mergeLoop]
        rw [hstep]
        have hnxt : nextOf h a = nda.next := by simp [nextOf, hga]
        have hLnd : (a :: L').Nodup := by
          have h0 : ((a :: L') ++ []).Nodup := (List.nodup_append.mp hnd).2.1
          simpa using h0
        have hL'2 : IsChain (setNext (setNext h m (some a)) a none) (nextOf h a) L' := by
          rw [hnxt]
          refine isChain_frame (fun c hc => ?_) htla
          have hcP : c ∉ P := fun hh => hdisj hh (by simp [hc])
          have hca : c ≠ a := fun hh => (List.nodup_cons.mp hLnd).1 (hh ▸ hc)
          exact hfr2 c hcP hca
        have hnd2 : ((P ++ [a]) ++ (L' ++ [])).Nodup := by
          simpa using hnd
        have hkey2 : ∀ c, valueOf (setNext (setNext h m (some a)) a none) c = key c := by
          intro c
          rw [valueOf_setNext, valueOf_setNext]
          exact hkey c
        rcases ih (setNext (setNext h m (some a)) a none) key start a (nextOf h a)
          none L' [] (P ++ [a]) hL'2 IsChain.nil hP2 (List.getLast?_concat _)
          hnd2 hkey2 (by simp at hfuel ⊢; omega) with ⟨c1, c2, c3, c4, c5⟩
        refine ⟨?_, c2, c3, ?_, ?_⟩
        · rw [mergeF_nil_right] at c1 ⊢
          simpa using c1
        · rw [c4, length_setNext, length_setNext]
        · intro c hc
          have hcP : c ∉ P := by simp at hc; tauto
          have hca : c ≠ a := by simp at hc; tauto
          have hcm : c ∉ (P ++ [a]) ++ (L' ++ []) := by simp at hc ⊢; tauto
          rw [c5 c hcm]
          exact hfr2 c hcP hca
      | @cons b ndb R' hgb htlb =>
        have htot : ((a :: L') ++ (b :: R')).Nodup := (List.nodup_append.mp hnd).2.1
        have hA : a ∉ L' ++ b :: R' := by
          have h0 := htot
          rw [List.cons_append] at h0
          exact (List.nodup_cons.mp h0).1
        have hB : b ∉ (a :: L') ++ R' := by
          rcases List.nodup_append.mp htot with ⟨hndL, hndR, hdj⟩
          intro hh
          rcases List.mem_append.mp hh with hh | hh
          · exact hdj hh (by simp)
          · exact (List.nodup_cons.mp hndR).1 hh
        by_cases hcmp : comparator h a b < 0
        · have haP : a ∉ P := fun hh => hdisj hh (by simp)
          rcases mergeTake_some hP hlastP hPnd haP hga with ⟨hP2, hfr2⟩
          have hstep : mergeLoop h start (some m) (some a) (some b) (fuel + 1) =
              mergeLoop (setNext (setNext h m (some a)) a none) start (some a)
                (nextOf h a) (some b) fuel := by
            simp [mergeLoop, hcmp]
          rw [hstep]
          have hnxt : nextOf h a = nda.next := by simp [nextOf, hga]
          have hfrL : ∀ c, c ∈ L' ∨ c ∈ b :: R' →
              (setNext (setNext h m (some a)) a none)[c]? = h[c]? := by
            intro c hc
            have hcmem : c ∈ L' ++ b :: R' := by
              rcases hc with hc | hc
              · exact List.mem_append_left _ hc
              · exact List.mem_append_right _ hc
            have hcP : c ∉ P := fun hh => hdisj hh (by
              rcases hc with hc | hc <;> simp [hc])
            have hca : c ≠ a := fun hh => hA (hh ▸ hcmem)
            exact hfr2 c hcP hca
          have hL'2 : IsChain (setNext (setNext h m (some a)) a none) (nextOf h a) L' := by
            rw [hnxt]
            exact isChain_frame (fun c hc => hfrL c (Or.inl hc)) htla
          have hR2 : IsChain (setNext (setNext h m (some a)) a none) (some b)
              (b :: R') :=
            isChain_frame (fun c hc => hfrL c (Or.inr hc)) (IsChain.cons hgb htlb)
          have hnd2 : ((P ++ [a]) ++ (L' ++ b :: R')).Nodup := by
            simpa using hnd
          have hkey2 : ∀ c, valueOf (setNext (setNext h m (some a)) a none) c = key c := by
            intro c
            rw [valueOf_setNext, valueOf_setNext]
            exact hkey c
          rcases ih (setNext (setNext h m (some a)) a none) key start a (nextOf h a)
            (some b) L' (b :: R') (P ++ [a]) hL'2 hR2 hP2
            (List.getLast?_concat _) hnd2 hkey2 (by simp at hfuel ⊢; omega) with
            ⟨c1, c2, c3, c4, c5⟩
          have hcmp' : strcmpI (key a) (key b) < 0 := by
            have h0 := hcmp
            unfold comparator at h0
            rwa [hkey a, hkey b] at h0
          refine ⟨?_, c2, c3, ?_, ?_⟩
          · rw [mergeF_cons_cons, if_pos hcmp']
            simpa using c1
          · rw [c4, length_setNext, length_setNext]
          · intro c hc
            have hcP : c ∉ P := by simp at hc; tauto
            have hca : c ≠ a := by simp at hc; tauto
            have hcm : c ∉ (P ++ [a]) ++ (L' ++ b :: R') := by simp at hc ⊢; tauto
            rw [c5 c hcm]
            exact hfr2 c hcP hca
        · have hbP : b ∉ P := fun hh => hdisj hh (by simp)
          rcases mergeTake_some hP hlastP hPnd hbP hgb with ⟨hP2, hfr2⟩
          have hstep : mergeLoop h start (some m) (some a) (some b) (fuel + 1) =
              mergeLoop (setNext (setNext h m (some b)) b none) start (some b)
                (some a) (nextOf h b) fuel := by
            simp [mergeLoop, hcmp]
          rw [hstep]
          have hnxt : nextOf h b = ndb.next := by simp [nextOf, hgb]
          have hfrR : ∀ c, c ∈ a :: L' ∨ c ∈ R' →
              (setNext (setNext h m (some b)) b none)[c]? = h[c]? := by
            intro c hc
            have hcmem : c ∈ (a :: L') ++ R' := by
              rcases hc with hc | hc
              · exact List.mem_append_left _ hc
              · exact List.mem_append_right _ hc
            have hcP : c ∉ P := fun hh => hdisj hh (by
              rcases hc with hc | hc <;> simp at hc ⊢ <;> tauto)
            have hcb : c ≠ b := fun hh => hB (hh ▸ hcmem)
            exact hfr2 c hcP hcb
          have hL2 : IsChain (setNext (setNext h m (some b)) b none) (some a)
              (a :: L') :=
            isChain_frame (fun c hc => hfrR c (Or.inl hc)) (IsChain.cons hga htla)
          have hR'2 : IsChain (setNext (setNext h m (some b)) b none) (nextOf h b)
              R' := by
            rw [hnxt]
            exact isChain_frame (fun c hc => hfrR c (Or.inr hc)) htlb
          have hinner : List.Perm ((a :: L') ++ b :: R') (b :: ((a :: L') ++ R')) :=
            List.perm_middle
          have hperm : List.Perm (P ++ ((a :: L') ++ b :: R'))
              ((P ++ [b]) ++ ((a :: L') ++ R')) := by
            have h1 := List.Perm.append_left P hinner
            have h2 : P ++ (b :: ((a :: L') ++ R')) = (P ++ [b]) ++ ((a :: L') ++ R') := by
              simp
            rw [h2] at h1
            exact h1
          have hnd2 : ((P ++ [b]) ++ ((a :: L') ++ R')).Nodup :=
            hperm.nodup (by simpa using hnd)
          have hkey2 : ∀ c, valueOf (setNext (setNext h m (some b)) b none) c = key c := by
            intro c
            rw [valueOf_setNext, valueOf_setNext]
            exact hkey c
          rcases ih (setNext (setNext h m (some b)) b none) key start b (some a)
            (nextOf h b) (a :: L') R' (P ++ [b]) hL2 hR'2 hP2
            (List.getLast?_concat _) hnd2 hkey2 (by simp at hfuel ⊢; omega) with
            ⟨c1, c2, c3, c4, c5⟩
          have hcmp' : ¬ strcmpI (key a) (key b) < 0 := by
            intro hh
            apply hcmp
            unfold comparator
            rwa [hkey a, hkey b]
          refine ⟨?_, c2, c3, ?_, ?_⟩
          · rw [mergeF_cons_cons, if_neg hcmp']
            simpa using c1
          · rw [c4, length_setNext, length_setNext]
          · intro c hc
            have hcP : c ∉ P := by simp at hc; tauto
            have hcb : c ≠ b := by simp at hc; tauto
            have hcm : c ∉ (P ++ [b]) ++ ((a :: L') ++ R') := by simp at hc ⊢; tauto
            rw [c5 c hcm]
            exact hfr2 c hcP hcb

/-- The merge loop from its initial state (`merge = NULL`, at least one
non-empty chain): it produces exactly the functional merge of the two
chains, touching only their nodes. -/
theorem mergeLoop_sim_none :
    ∀ (fuel : Nat) (h : Heap) (key : Nat → String) (start left right : Option Nat)
      (L R : List Nat),
      IsChain h left L → IsChain h right R →
      (L ++ R).Nodup →
      (∀ b, valueOf h b = key b) →
      L ≠ [] ∨ R ≠ [] →
      L.length + R.length ≤ fuel + 1 →
      IsChain (mergeLoop h start none left right (fuel + 1)).1
        (mergeLoop h start none left right (fuel + 1)).2 (mergeF key L R) ∧
      (∀ b, valueOf (mergeLoop h start none left right (fuel + 1)).1 b = key b) ∧
      (mergeLoop h start none left right (fuel + 1)).1.length = h.length ∧
      (∀ b, b ∉ L ++ R →
        (mergeLoop h start none left right (fuel + 1)).1[b]? = h[b]?) := by
  intro fuel h key start left right L R hL hR hnd hkey hne hfuel
  cases hL with
  | nil =>
    cases hR with
    | nil => simp at hne
    | @cons b ndb R' hgb htlb =>
      have hstep : mergeLoop h start none none (some b) (fuel + 1) =
          mergeLoop (setNext h b none) (some b) (some b) none (nextOf h b) fuel := by
        simp [mergeLoop]
      rw [hstep]
      have hP2 : IsChain (setNext h b none) (some b) [b] :=
        IsChain.cons (getElem?_setNext_self hgb) IsChain.nil
      have hRnd : (b :: R').Nodup := by simpa using hnd
      have hnxt : nextOf h b = ndb.next := by simp [nextOf, hgb]
      have hR'2 : IsChain (setNext h b none) (nextOf h b) R' := by
        rw [hnxt]
        refine isChain_frame (fun c hc => ?_) htlb
        exact getElem?_setNext_ne (fun hh => (List.nodup_cons.mp hRnd).1 (hh ▸ hc))
      have hnd2 : ([b] ++ ([] ++ R')).Nodup := by simpa using hnd
      have hkey2 : ∀ c, valueOf (setNext h b none) c = key c := by
        intro c
        rw [valueOf_setNext]
        exact hkey c
      rcases mergeLoop_sim_some fuel (setNext h b none) key (some b) b none
        (nextOf h b) [] R' [b] IsChain.nil hR'2 hP2 (by simp) hnd2 hkey2
        (by simp at hfuel ⊢; omega) with ⟨c1, c2, c3, c4, c5⟩
      refine ⟨?_, c3, ?_, ?_⟩
      · rw [c2, mergeF_nil_left]
        rw [mergeF_nil_left] at c1
        simpa using c1
      · rw [c4, length_setNext]
      · intro c hc
        have hcb : c ≠ b := by simp at hc; tauto
        have hcm : c ∉ [b] ++ ([] ++ R') := by simp at hc ⊢; tauto
        rw [c5 c hcm]
        exact getElem?_setNext_ne hcb
  | @cons a nda L' hga htla =>
    cases hR with
    | nil =>
      have hstep : mergeLoop h start none (some a) none (fuel + 1) =
          mergeLoop (setNext h a none) (some a) (some a) (nextOf h a) none fuel := by
        simp [mergeLoop]
      rw [hstep]
      have hP2 : IsChain (setNext h a none) (some a) [a] :=
        IsChain.cons (getElem?_setNext_self hga) IsChain.nil
      have hLnd : (a :: L').Nodup := by simpa using hnd
      have hnxt : nextOf h a = nda.next := by simp [nextOf, hga]
      have hL'2 : IsChain (setNext h a none) (nextOf h a) L' := by
        rw [hnxt]
        refine isChain_frame (fun c hc => ?_) htla
        exact getElem?_setNext_ne (fun hh => (List.nodup_cons.mp hLnd).1 (hh ▸ hc))
      have hnd2 : ([a] ++ (L' ++ [])).Nodup := by simpa using hnd
      have hkey2 : ∀ c, valueOf (setNext h a none) c = key c := by
        intro c
        rw [valueOf_setNext]
        exact hkey c
      rcases mergeLoop_sim_some fuel (setNext h a none) key (some a) a (nextOf h a)
        none L' [] [a] hL'2 IsChain.nil hP2 (by simp) hnd2 hkey2
        (by simp at hfuel ⊢; omega) with ⟨c1, c2, c3, c4, c5⟩
      refine ⟨?_, c3, ?_, ?_⟩
      · rw [c2, mergeF_nil_right]
        rw [mergeF_nil_right] at c1
        simpa using c1
      · rw [c4, length_setNext]
      · intro c hc
        have hca : c ≠ a := by simp at hc; tauto
        have hcm : c ∉ [a] ++ (L' ++ []) := by simp at hc ⊢; tauto
        rw [c5 c hcm]
        exact getElem?_setNext_ne hca
    | @cons b ndb R' hgb htlb =>
      have htot : ((a :: L') ++ (b :: R')).Nodup := hnd
      have hA : a ∉ L' ++ b :: R' := by
        have h0 := htot
        rw [List.cons_append] at h0
        exact (List.nodup_cons.mp h0).1
      have hB : b ∉ (a :: L') ++ R' := by
        rcases List.nodup_append.mp htot with ⟨hndL, hndR, hdj⟩
        intro hh
        rcases List.mem_append.mp hh with hh | hh
        · exact hdj hh (by simp)
        · exact (List.nodup_cons.mp hndR).1 hh
      by_cases hcmp : comparator h a b < 0
      · have hstep : mergeLoop h start none (some a) (some b) (fuel + 1) =
            mergeLoop (setNext h a none) (some a) (some a) (nextOf h a) (some b)
              fuel := by
          simp [mergeLoop, hcmp]
        rw [hstep]
        have hP2 : IsChain (setNext h a none) (some a) [a] :=
          IsChain.cons (getElem?_setNext_self hga) IsChain.nil
        have hnxt : nextOf h a = nda.next := by simp [nextOf, hga]
        have hfrL : ∀ c, c ∈ L' ∨ c ∈ b :: R' → (setNext h a none)[c]? = h[c]? := by
          intro c hc
          have hcmem : c ∈ L' ++ b :: R' := by
            rcases hc with hc | hc
            · exact List.mem_append_left _ hc
            · exact List.mem_append_right _ hc
          exact getElem?_setNext_ne (fun hh => hA (hh ▸ hcmem))
        have hL'2 : IsChain (setNext h a none) (nextOf h a) L' := by
          rw [hnxt]
          exact isChain_frame (fun c hc => hfrL c (Or.inl hc)) htla
        have hR2 : IsChain (setNext h a none) (some b) (b :: R') :=
          isChain_frame (fun c hc => hfrL c (Or.inr hc)) (IsChain.cons hgb htlb)
        have hnd2 : ([a] ++ (L' ++ b :: R')).Nodup := by simpa using hnd
        have hkey2 : ∀ c, valueOf (setNext h a none) c = key c := by
          intro c
          rw [valueOf_setNext]
          exact hkey c
        rcases mergeLoop_sim_some fuel (setNext h a none) key (some a) a (nextOf h a)
          (some b) L' (b :: R') [a] hL'2 hR2 hP2 (by simp) hnd2 hkey2
          (by simp at hfuel ⊢; omega) with ⟨c1, c2, c3, c4, c5⟩
        have hcmp' : strcmpI (key a) (key b) < 0 := by
          have h0 := hcmp
          unfold comparator at h0
          rwa [hkey a, hkey b] at h0
        refine ⟨?_, c3, ?_, ?_⟩
        · rw [c2, mergeF_cons_cons, if_pos hcmp']
          simpa using c1
        · rw [c4, length_setNext]
        · intro c hc
          have hca : c ≠ a := by simp at hc; tauto
          have hcm : c ∉ [a] ++ (L' ++ b :: R') := by simp at hc ⊢; tauto
          rw [c5 c hcm]
          exact getElem?_setNext_ne hca
      · have hstep : mergeLoop h start none (some a) (some b) (fuel + 1) =
            mergeLoop (setNext h b none) (some b) (some b) (some a) (nextOf h b)
              fuel := by
          simp [mergeLoop, hcmp]
        rw [hstep]
        have hP2 : IsChain (setNext h b none) (some b) [b] :=
          IsChain.cons (getElem?_setNext_self hgb) IsChain.nil
        have hnxt : nextOf h b = ndb.next := by simp [nextOf, hgb]
        have hfrR : ∀ c, c ∈ a :: L' ∨ c ∈ R' → (setNext h b none)[c]? = h[c]? := by
          intro c hc
          have hcmem : c ∈ (a :: L') ++ R' := by
            rcases hc with hc | hc
            · exact List.mem_append_left _ hc
            · exact List.mem_append_right _ hc
          exact getElem?_setNext_ne (fun hh => hB (hh ▸ hcmem))
        have hL2 : IsChain (setNext h b none) (some a) (a :: L') :=
          isChain_frame (fun c hc => hfrR c (Or.inl hc)) (IsChain.cons hga htla)
        have hR'2 : IsChain (setNext h b none) (nextOf h b) R' := by
          rw [hnxt]
          exact isChain_frame (fun c hc => hfrR c (Or.inr hc)) htlb
        have hinner : List.Perm ((a :: L') ++ b :: R') (b :: ((a :: L') ++ R')) :=
          List.perm_middle
        have hnd2 : ([b] ++ ((a :: L') ++ R')).Nodup := by
          have := hinner.nodup (by simpa using hnd)
          simpa using this
        have hkey2 : ∀ c, valueOf (setNext h b none) c = key c := by
          intro c
          rw [valueOf_setNext]
          exact hkey c
        rcases mergeLoop_sim_some fuel (setNext h b none) key (some b) b (some a)
          (nextOf h b) (a :: L') R' [b] hL2 hR'2 hP2 (by simp) hnd2 hkey2
          (by simp at hfuel ⊢; omega) with ⟨c1, c2, c3, c4, c5⟩
        have hcmp' : ¬ strcmpI (key a) (key b) < 0 := by
          intro hh
          apply hcmp
          unfold comparator
          rwa [hkey a, hkey b]
        refine ⟨?_, c3, ?_, ?_⟩
        · rw [c2, mergeF_cons_cons, if_neg hcmp']
          simpa using c1
        · rw [c4, length_setNext]
        · intro c hc
          have hcb : c ≠ b := by simp at hc; tauto
          have hcm : c ∉ [b] ++ ((a :: L') ++ R') := by simp at hc ⊢; tauto
          rw [c5 c hcm]
          exact getElem?_setNext_ne hcb

/-! ### The recursive sort -/

theorem msF_nil (key : Nat → String) : msF key [] = [] := by
  rw [msF]

theorem msF_single (key : Nat → String) (a : Nat) : msF key [a] = [a] := by
  rw [msF]

theorem msF_cons_cons (key : Nat → String) (a b : Nat) (rest : List Nat) :
    msF key (a :: b :: rest) =
      mergeF key (msF key ((a :: b :: rest).take (((a :: b :: rest).length + 1) / 2)))
        (msF key ((a :: b :: rest).drop (((a :: b :: rest).length + 1) / 2))) := by
  rw [msF]

/-- Simulation of the in-place `mergesort` by the functional `msF`: the
chain of `start` gets rearranged into `msF key l`, values are untouched
everywhere, the arena keeps its size, and nodes outside the chain keep
their links. -/
theorem mergesortH_sim :
    ∀ (fuel : Nat) (h : Heap) (start : Option Nat) (l : List Nat) (key : Nat → String),
      IsChain h start l → (∀ b, valueOf h b = key b) → l.length ≤ fuel →
      IsChain (mergesortH h start fuel).1 (mergesortH h start fuel).2 (msF key l) ∧
      (∀ b, valueOf (mergesortH h start fuel).1 b = key b) ∧
      (mergesortH h start fuel).1.length = h.length ∧
      (∀ b, b ∉ l → (mergesortH h start fuel).1[b]? = h[b]?) := by
  intro fuel
  induction fuel with
  | zero =>
    intro h start l key hc hkey hfuel
    have hl0 : l = [] := List.length_eq_zero.mp (by omega)
    subst hl0
    have hs : start = none := isChain_nil_ptr hc
    subst hs
    exact ⟨by rw [msF_nil]; exact hc, hkey, rfl, fun b _ => rfl⟩
  | succ fuel ih =>
    intro h start l key hc hkey hfuel
    cases start with
    | none =>
      have hl0 : l = [] := isChain_none hc
      subst hl0
      exact ⟨by rw [msF_nil]; exact hc, hkey, rfl, fun b _ => rfl⟩
    | some a =>
      rcases isChain_some hc with ⟨nda, l₁, hga, rfl, htla⟩
      cases l₁ with
      | nil =>
        have hnone : nda.next = none := isChain_nil_ptr htla
        have hstep : mergesortH h (some a) (fuel + 1) = (h, some a) := by
          simp [mergesortH, nextOf, hga, hnone]
        rw [hstep]
        exact ⟨by rw [msF_single]; exact hc, hkey, rfl, fun b _ => rfl⟩
      | cons b l₂ =>
        have hnb : nda.next = some b := by rw [isChain_head htla]; rfl
        have hnextEq : nextOf h a = some b := by simp [nextOf, hga, hnb]
        have hnd : (a :: b :: l₂).Nodup := isChain_nodup hc
        have hval : (a :: b :: l₂).length ≤ h.length := isChain_length_le hc
        have hn2 : 2 ≤ (a :: b :: l₂).length := by simp
        have hsp := splitLoop_sim (h.length + 1) h a a (a :: b :: l₂) (a :: b :: l₂)
          hc hc (by omega) (by omega)
        have hkeq : ((a :: b :: l₂).length - 1) / 2 + 1 - 1 =
            ((a :: b :: l₂).length - 1) / 2 := by omega
        have hk1 : (a :: b :: l₂)[((a :: b :: l₂).length - 1) / 2 + 1 - 1]? =
            some (splitLoop h a a (h.length + 1)) := by
          rw [hkeq]
          exact hsp
        have hkub : ((a :: b :: l₂).length - 1) / 2 + 1 ≤ (a :: b :: l₂).length - 1 := by
          omega
        have hstep : mergesortH h (some a) (fuel + 1) =
            mergeLoop
              (mergesortH
                (mergesortH (setNext h (splitLoop h a a (h.length + 1)) none) (some a)
                  fuel).1
                (nextOf h (splitLoop h a a (h.length + 1))) fuel).1
              (some a) none
              (mergesortH (setNext h (splitLoop h a a (h.length + 1)) none) (some a)
                fuel).2
              (mergesortH
                (mergesortH (setNext h (splitLoop h a a (h.length + 1)) none) (some a)
                  fuel).1
                (nextOf h (splitLoop h a a (h.length + 1))) fuel).2
              ((mergesortH
                (mergesortH (setNext h (splitLoop h a a (h.length + 1)) none) (some a)
                  fuel).1
                (nextOf h (splitLoop h a a (h.length + 1))) fuel).1.length + 1) := by
          simp [mergesortH, hnextEq]
        rw [hstep]
        set n := (a :: b :: l₂).length with hn
        set SL := splitLoop h a a (h.length + 1) with hSL
        set k := (n - 1) / 2 + 1 with hk
        set H0 := setNext h SL none with hH0
        set R1 := mergesortH H0 (some a) fuel with hR1def
        set R2 := mergesortH R1.1 (nextOf h SL) fuel with hR2def
        have hslmem : SL ∈ a :: b :: l₂ := List.getElem?_mem hk1
        have hslmem_take : SL ∈ (a :: b :: l₂).take k := by
          have hh : ((a :: b :: l₂).take k)[k - 1]? = some SL := by
            rw [List.getElem?_take_of_lt (by omega)]
            exact hk1
          exact List.getElem?_mem hh
        have hnd' : ((a :: b :: l₂).take k ++ (a :: b :: l₂).drop k).Nodup := by
          rw [List.take_append_drop]
          exact hnd
        have hdj : ((a :: b :: l₂).take k).Disjoint ((a :: b :: l₂).drop k) :=
          (List.nodup_append.mp hnd').2.2
        have hdropC := isChain_drop hc (k - 1)
        rcases List.getElem?_eq_some.mp hk1 with ⟨hklt, hgetl⟩
        have hdrop_eq : (a :: b :: l₂).drop (k - 1) = SL :: (a :: b :: l₂).drop k := by
          have hks : k - 1 + 1 = k := by omega
          rw [List.drop_eq_getElem_cons hklt, hgetl, hks]
        have hSLchain : IsChain h (some SL) (SL :: (a :: b :: l₂).drop k) := by
          rw [hdrop_eq] at hdropC
          simpa using hdropC
        rcases isChain_some hSLchain with ⟨ndsl, t0, hgsl, ht0, htlsl⟩
        have ht0' : t0 = (a :: b :: l₂).drop k := by
          injection ht0 with h1 h2
          exact h2.symm
        subst ht0'
        have hnsl : nextOf h SL = ndsl.next := by simp [nextOf, hgsl]
        have hL0 : IsChain H0 (some a) ((a :: b :: l₂).take k) :=
          isChain_take hc hnd k SL (by omega) hk1
        have hR0 : IsChain H0 (nextOf h SL) ((a :: b :: l₂).drop k) := by
          rw [hnsl]
          refine isChain_frame (fun c hcm => ?_) htlsl
          exact getElem?_setNext_ne (fun hh => hdj hslmem_take (hh ▸ hcm))
        have hkey0 : ∀ c, valueOf H0 c = key c := fun c => by
          rw [hH0, valueOf_setNext]
          exact hkey c
        have hlenTake : ((a :: b :: l₂).take k).length = k := by
          rw [List.length_take]
          omega
        have hlenDrop : ((a :: b :: l₂).drop k).length = n - k := by
          rw [List.length_drop]
        rcases ih H0 (some a) ((a :: b :: l₂).take k) key hL0 hkey0
          (by rw [hlenTake]; omega) with ⟨d1, d2, d3, d4⟩
        have hR1c : IsChain R1.1 (nextOf h SL) ((a :: b :: l₂).drop k) :=
          isChain_frame (fun c hcm => d4 c (fun hcs => hdj hcs hcm)) hR0
        rcases ih R1.1 (nextOf h SL) ((a :: b :: l₂).drop k) key hR1c d2
          (by rw [hlenDrop]; omega) with ⟨e1, e2, e3, e4⟩
        have hL2 : IsChain R2.1 R1.2 (msF key ((a :: b :: l₂).take k)) := by
          refine isChain_frame (fun c hcm => ?_) d1
          refine e4 c (fun hcd => ?_)
          exact hdj ((msF_perm key _).mem_iff.mp hcm) hcd
        have hpm : List.Perm ((a :: b :: l₂).take k ++ (a :: b :: l₂).drop k)
            (msF key ((a :: b :: l₂).take k) ++ msF key ((a :: b :: l₂).drop k)) :=
          List.Perm.append (msF_perm key _).symm (msF_perm key _).symm
        have hndM : (msF key ((a :: b :: l₂).take k) ++
            msF key ((a :: b :: l₂).drop k)).Nodup := hpm.nodup hnd'
        have hlenMTake : (msF key ((a :: b :: l₂).take k)).length = k :=
          ((msF_perm key _).length_eq).trans hlenTake
        have hlenMDrop : (msF key ((a :: b :: l₂).drop k)).length = n - k :=
          ((msF_perm key _).length_eq).trans hlenDrop
        have hlen2 : R2.1.length = h.length := by
          rw [e3, d3, hH0, length_setNext]
        rcases mergeLoop_sim_none R2.1.length R2.1 key (some a) R1.2 R2.2
          (msF key ((a :: b :: l₂).take k)) (msF key ((a :: b :: l₂).drop k))
          hL2 e1 hndM e2
          (Or.inl (List.length_pos.mp (by rw [hlenMTake]; omega)))
          (by rw [hlenMTake, hlenMDrop, hlen2]; omega) with ⟨f1, f2, f3, f4⟩
        have hkk : (n + 1) / 2 = k := by rw [hk]; omega
        refine ⟨?_, f2, ?_, ?_⟩
        · rw [msF_cons_cons, ← hn, hkk]
          exact f1
        · rw [f3, hlen2]
        · intro c hcl
          have hcT : c ∉ (a :: b :: l₂).take k :=
            fun hmem => hcl (List.take_subset _ _ hmem)
          have hcD : c ∉ (a :: b :: l₂).drop k :=
            fun hmem => hcl (List.drop_subset _ _ hmem)
          have hcM : c ∉ msF key ((a :: b :: l₂).take k) ++
              msF key ((a :: b :: l₂).drop k) := by
            intro hmem
            rcases List.mem_append.mp hmem with hmem | hmem
            · exact hcT ((msF_perm key _).mem_iff.mp hmem)
            · exact hcD ((msF_perm key _).mem_iff.mp hmem)
          rw [f4 c hcM, e4 c hcD, d4 c hcT, hH0]
          exact getElem?_setNext_ne (fun hh => hcl (hh ▸ hslmem))

/-- End-to-end effect of `q_sort` on a queue satisfying the
representation invariant: the chain becomes `msF` of the old chain under
the original valuation, values and arena size are untouched, `count` is
unchanged and `last_element` is the new chain's last node. -/
theorem q_sort_spec (s : State) (hs : RepOk s) :
    ∃ l l', IsChain s.heap s.q.head l ∧
      IsChain (q_sort s).heap (q_sort s).q.head l' ∧
      l' = msF (valueOf s.heap) l ∧
      (∀ b, valueOf (q_sort s).heap b = valueOf s.heap b) ∧
      (q_sort s).heap.length = s.heap.length ∧
      (q_sort s).q.count = s.q.count ∧
      (q_sort s).q.last_element = l'.getLast? := by
  rcases hs with ⟨l, hc, hcount, hlast⟩
  cases hh : s.q.head with
  | none =>
    have e : q_sort s = s := by simp [q_sort, hh]
    rw [hh] at hc
    have hl0 : l = [] := isChain_none hc
    subst hl0
    refine ⟨[], [], hc, ?_, (msF_nil _).symm, fun b => by rw [e],
      by rw [e], by rw [e], ?_⟩
    · rw [e, hh]
      exact hc
    · rw [e]
      simpa using hlast
  | some a =>
    rw [hh] at hc
    rcases isChain_some hc with ⟨nda, l₁, hga, rfl, htla⟩
    by_cases hc1 : s.q.count = 1
    · have e : q_sort s = s := by simp [q_sort, hh, hc1]
      have hl1 : l₁ = [] := by
        rw [hc1] at hcount
        have : (1 : Int) = ((l₁.length + 1 : Nat) : Int) := by simpa using hcount
        have hzz : l₁.length = 0 := by omega
        exact List.length_eq_zero.mp hzz
      subst hl1
      refine ⟨[a], [a], hc, ?_, (msF_single _ a).symm,
        fun b => by rw [e], by rw [e], by rw [e], ?_⟩
      · rw [e, hh]
        exact hc
      · rw [e]
        simpa using hlast
    · have hlen : (a :: l₁).length ≤ s.heap.length := isChain_length_le hc
      rcases mergesortH_sim (s.heap.length + 1) s.heap (some a) (a :: l₁)
        (valueOf s.heap) hc (fun b => rfl) (by omega) with ⟨m1, m2, m3, m4⟩
      cases hmsf : msF (valueOf s.heap) (a :: l₁) with
      | nil =>
        exfalso
        have := (msF_perm (valueOf s.heap) (a :: l₁)).length_eq
        rw [hmsf] at this
        simp at this
      | cons b' t' =>
        have hr2 : (mergesortH s.heap (some a) (s.heap.length + 1)).2 = some b' := by
          have hhd := isChain_head m1
          rw [hmsf] at hhd
          exact hhd
        have e : q_sort s =
            { heap := (mergesortH s.heap (some a) (s.heap.length + 1)).1,
              q := { head := some b', count := s.q.count,
                     last_element := some (lastLoop
                       (mergesortH s.heap (some a) (s.heap.length + 1)).1 b'
                       ((mergesortH s.heap (some a) (s.heap.length + 1)).1.length + 1)) } }
            := by
          simp [q_sort, hh, hc1, hr2]
        have hchain' : IsChain (mergesortH s.heap (some a) (s.heap.length + 1)).1
            (some b') (b' :: t') := by
          rw [← hmsf, ← hr2]
          exact m1
        have hlast' := lastLoop_spec t'
          (mergesortH s.heap (some a) (s.heap.length + 1)).1 b'
          ((mergesortH s.heap (some a) (s.heap.length + 1)).1.length + 1) hchain'
          (by
            have hp := (msF_perm (valueOf s.heap) (a :: l₁)).length_eq
            rw [hmsf] at hp
            simp at hp
            rw [m3]
            simp at hlen
            omega)
        refine ⟨a :: l₁, b' :: t', hc, ?_, hmsf.symm,
          fun b => by rw [e]; exact m2 b, by rw [e]; exact m3, by rw [e], ?_⟩
        · rw [e]
          exact hchain'
        · rw [e]
          exact hlast'.symm

theorem repOk_sort (s : State) (hs : RepOk s) : RepOk (q_sort s) := by
  rcases q_sort_spec s hs with ⟨l, l', hc, hc', hl', hvals, hlen, hcnt, hlast'⟩
  rcases hs with ⟨l0, hc0, hcount0, hlast0⟩
  have hl0 : l0 = l := isChain_deterministic hc0 hc
  rw [hl0] at hcount0
  refine ⟨l', hc', ?_, hlast'⟩
  rw [hcnt, hcount0]
  have hpl : l'.length = l.length := by
    rw [hl']
    exact (msF_perm (valueOf s.heap) l).length_eq
  rw [hpl]

/-- C2: sort keeps exactly the existing elements — the new chain is a
permutation of the old (same nodes, so the multiset of stored strings is
unchanged) — and arranges the value sequence in ascending byte-wise
(strcmp) order: every pair, in particular every adjacent pair, satisfies
compare(prev, next) ≤ 0. -/
theorem q_sort_sorts_and_preserves_multiset (s : State) (hs : RepOk s) :
    ∃ v v', qVals s = some v ∧ qVals (q_sort s) = some v' ∧
      List.Perm v' v ∧ List.Pairwise sle v' := by
  rcases q_sort_spec s hs with ⟨l, l', hc, hc', hl', hvals, hlen, hcnt, hlast'⟩
  have hv1 : qVals s = some (l.map (valueOf s.heap)) := qVals_of_isChain hc
  have hv2 : qVals (q_sort s) = some (l'.map (valueOf (q_sort s).heap)) :=
    qVals_of_isChain hc'
  have hmap : l'.map (valueOf (q_sort s).heap) = l'.map (valueOf s.heap) :=
    List.map_congr_left fun b _ => hvals b
  refine ⟨_, _, hv1, hv2, ?_, ?_⟩
  · rw [hmap, hl']
    exact (msF_perm (valueOf s.heap) l).map _
  · rw [hmap, hl']
    exact List.Pairwise.map _ (fun a b hab => hab) (msF_sorted (valueOf s.heap) l)

/-- C9: sort is idempotent — sorting twice produces the same value
sequence as sorting once (the two results are sorted permutations of the
same multiset, and `strcmp`-order is antisymmetric). -/
theorem q_sort_idempotent (s : State) (hs : RepOk s) :
    qVals (q_sort (q_sort s)) = qVals (q_sort s) := by
  rcases q_sort_spec s hs with ⟨l, l', hc, hc', hl', hvals, hlen, hcnt, hlast'⟩
  have hs' : RepOk (q_sort s) := repOk_sort s hs
  rcases q_sort_spec (q_sort s) hs' with ⟨m, m', hd, hd', hm', hvals2, _, _, _⟩
  have hml : m = l' := isChain_deterministic hd hc'
  rw [hml] at hm'
  have hv2 : qVals (q_sort s) = some (l'.map (valueOf (q_sort s).heap)) :=
    qVals_of_isChain hc'
  have hv3 : qVals (q_sort (q_sort s)) =
      some (m'.map (valueOf (q_sort (q_sort s)).heap)) := qVals_of_isChain hd'
  rw [hv2, hv3]
  have hkey2 : ∀ b, valueOf (q_sort (q_sort s)).heap b = valueOf s.heap b :=
    fun b => (hvals2 b).trans (hvals b)
  have hmapm : m'.map (valueOf (q_sort (q_sort s)).heap) = m'.map (valueOf s.heap) :=
    List.map_congr_left fun b _ => hkey2 b
  have hmapl : l'.map (valueOf (q_sort s).heap) = l'.map (valueOf s.heap) :=
    List.map_congr_left fun b _ => hvals b
  rw [hmapm, hmapl]
  congr 1
  have hperm : List.Perm (m'.map (valueOf s.heap)) (l'.map (valueOf s.heap)) := by
    rw [hm']
    exact (msF_perm (valueOf (q_sort s).heap) l').map _
  have hsort1 : List.Pairwise sle (m'.map (valueOf s.heap)) := by
    rw [hm']
    refine List.Pairwise.map _ ?_ (msF_sorted (valueOf (q_sort s).heap) l')
    intro a b hab
    rwa [hvals a, hvals b] at hab
  have hsort2 : List.Pairwise sle (l'.map (valueOf s.heap)) := by
    rw [hl']
    exact List.Pairwise.map _ (fun a b hab => hab) (msF_sorted (valueOf s.heap) l)
  haveI : IsAntisymm String sle := ⟨fun _ _ => strcmpI_antisymm⟩
  exact List.eq_of_perm_of_sorted hperm hsort1 hsort2

/-- Witness for C2 at the queue holding "banana", "apple", "cherry":
the spec example; the second conjunct checks the concrete sorted
output. -/
theorem q_sort_sorts_and_preserves_multiset_witness :
    (∃ v v', qVals { heap := [{ value := "banana", next := some 1 }, { value := "apple", next := some 2 }, { value := "cherry", next := none }], q := { head := some 0, count := 3, last_element := some 2 } } = some v ∧
      qVals (q_sort { heap := [{ value := "banana", next := some 1 }, { value := "apple", next := some 2 }, { value := "cherry", next := none }], q := { head := some 0, count := 3, last_element := some 2 } }) = some v' ∧
      List.Perm v' v ∧ List.Pairwise sle v') ∧
    qVals (q_sort { heap := [{ value := "banana", next := some 1 }, { value := "apple", next := some 2 }, { value := "cherry", next := none }], q := { head := some 0, count := 3, last_element := some 2 } }) = some ["apple", "banana", "cherry"] :=
  ⟨q_sort_sorts_and_preserves_multiset { heap := [{ value := "banana", next := some 1 }, { value := "apple", next := some 2 }, { value := "cherry", next := none }], q := { head := some 0, count := 3, last_element := some 2 } }
      ⟨[0, 1, 2], IsChain.cons rfl (IsChain.cons rfl (IsChain.cons rfl IsChain.nil)),
        rfl, rfl⟩,
    by decide⟩

/-- Witness for C9 at a concrete two-element unsorted queue. -/
theorem q_sort_idempotent_witness :
    qVals (q_sort (q_sort { heap := [{ value := "b", next := some 1 }, { value := "a", next := none }], q := { head := some 0, count := 2, last_element := some 1 } })) = qVals (q_sort { heap := [{ value := "b", next := some 1 }, { value := "a", next := none }], q := { head := some 0, count := 2, last_element := some 1 } }) :=
  q_sort_idempotent { heap := [{ value := "b", next := some 1 }, { value := "a", next := none }], q := { head := some 0, count := 2, last_element := some 1 } }
    ⟨[0, 1], IsChain.cons rfl (IsChain.cons rfl IsChain.nil), rfl, rfl⟩

theorem facets_of_repOk {t : State} (hs : RepOk t) : Facets t := by
  rcases hs with ⟨l, hc, hcount, hlast⟩
  refine ⟨?_, ?_, ?_, l, hc, hcount, isChain_nodup hc⟩
  · cases l with
    | nil =>
      have h1 : t.q.head = none := isChain_nil_ptr hc
      have h2 : t.q.last_element = none := by simpa using hlast
      simp [h1, h2]
    | cons a l' =>
      have h1 : t.q.head = some a := isChain_head hc
      have h2 : ¬ t.q.last_element = none := by
        rw [hlast]
        simp [List.getLast?_eq_none_iff]
      simp [h1, h2]
  · cases l with
    | nil =>
      have h1 : t.q.head = none := isChain_nil_ptr hc
      have h2 : t.q.count = 0 := by simpa using hcount
      simp [h1, h2]
    | cons a l' =>
      have h1 : t.q.head = some a := isChain_head hc
      have h2 : ¬ t.q.count = 0 := by
        rw [hcount]
        simp only [List.length_cons]
        push_cast
        omega
      simp [h1, h2]
  · intro x hx
    rw [hlast] at hx
    exact isChain_getLast_next hc x hx

theorem repOk_insert_head_flags (s : State) (str : String) (ok1 ok2 : Bool)
    (hs : RepOk s) : RepOk (q_insert_head ok1 ok2 s str).2 := by
  cases ok1 <;> cases ok2
  · exact hs
  · exact hs
  · exact hs
  · exact repOk_insert_head s str hs

theorem repOk_insert_tail_flags (s : State) (str : String) (ok1 ok2 : Bool)
    (hs : RepOk s) : RepOk (q_insert_tail ok1 ok2 s str).2 := by
  cases ok1 <;> cases ok2
  · exact hs
  · exact hs
  · exact hs
  · exact repOk_insert_tail s str hs

/-- C3: every public operation, applied to a queue satisfying the
representation invariant, yields a queue that still satisfies it:
`head` is none iff `last_element` is none iff `count = 0`; the cached
tail node's `next` is NULL; `count` equals the number of nodes reachable
from `head`; and the chain is acyclic. (`q_size` mutates nothing and
reports the cached count.) -/
theorem public_ops_preserve_invariant (s : State) (hs : RepOk s) (str : String)
    (ok1 ok2 sp : Bool) (n : Nat) :
    Facets (q_insert_head ok1 ok2 s str).2 ∧
    Facets (q_insert_tail ok1 ok2 s str).2 ∧
    Facets (q_remove_head s sp n).2.2 ∧
    Facets (q_reverse s) ∧
    Facets (q_sort s) ∧
    q_size (some s) = s.q.count ∧ Facets s :=
  ⟨facets_of_repOk (repOk_insert_head_flags s str ok1 ok2 hs),
    facets_of_repOk (repOk_insert_tail_flags s str ok1 ok2 hs),
    facets_of_repOk (repOk_remove_head s sp n hs),
    facets_of_repOk (repOk_reverse s hs),
    facets_of_repOk (repOk_sort s hs),
    rfl,
    facets_of_repOk hs⟩

/-- Witness for C3 at a concrete one-element queue. -/
theorem public_ops_preserve_invariant_witness :
    Facets (q_insert_head true true { heap := [{ value := "a", next := none }], q := { head := some 0, count := 1, last_element := some 0 } } "b").2 ∧
    Facets (q_insert_tail true true { heap := [{ value := "a", next := none }], q := { head := some 0, count := 1, last_element := some 0 } } "b").2 ∧
    Facets (q_remove_head { heap := [{ value := "a", next := none }], q := { head := some 0, count := 1, last_element := some 0 } } true 8).2.2 ∧
    Facets (q_reverse { heap := [{ value := "a", next := none }], q := { head := some 0, count := 1, last_element := some 0 } }) ∧
    Facets (q_sort { heap := [{ value := "a", next := none }], q := { head := some 0, count := 1, last_element := some 0 } }) ∧
    q_size (some { heap := [{ value := "a", next := none }], q := { head := some 0, count := 1, last_element := some 0 } }) = ({ heap := [{ value := "a", next := none }], q := { head := some 0, count := 1, last_element := some 0 } } : State).q.count ∧ Facets { heap := [{ value := "a", next := none }], q := { head := some 0, count := 1, last_element := some 0 } } :=
  public_ops_preserve_invariant { heap := [{ value := "a", next := none }], q := { head := some 0, count := 1, last_element := some 0 } }
    ⟨[0], IsChain.cons rfl IsChain.nil, rfl, rfl⟩ "b" true true true 8

end Lab0
